import Mathlib

/-!
# Sorted-L1 proximal operator (`src/src/proxSortedL1.c`)

A shallow embedding of the C function `evaluateProx` and a verification of
its specification.

Conventions of the embedding.

* `double` values are rationals (`ℚ`), and the function is embedded twice.
  `evaluateProx` computes with exact arithmetic; the theorems are about it
  unless they name the rounded pass. `evaluateProxR fl` applies a rounding
  function `fl` to the
  result of each of the three floating-point operations of the pass, and
  `fl64` is rounding to binary64; `evaluateProxR id` is `evaluateProx`
  (`evaluateProxR_id`). Overflow, subnormal numbers, infinities and NaN are
  not modelled.
* `size_t` values are natural numbers; every such value the function forms
  is at most `n`, so no wrap-around can occur except in the subtraction
  `i - idx_i[k]`, which is checked explicitly.
* The semantics is *checked*: a read or write outside an array, a read of a
  cell of a freshly allocated array that was never written, and an
  underflowing `size_t` subtraction make the computation yield `none`.
  A result `some _` therefore means that the run was free of these faults.
* Two ghost counters that the C code does not have are carried along to
  state trace properties: the number of executed merge steps, and the list
  of the indices of `x` that were written, in order.
-/

namespace ProxSortedL1

/-! ## Memory model -/

/-- A freshly allocated array of `n` cells, none of which has been written. -/
def malloc (α : Type) (n : Nat) : List (Option α) := List.replicate n none

/-- Checked read `a[i]` of a working array. -/
def rd {α : Type} (a : List (Option α)) (i : Nat) : Option α := a.getD i none

/-- Checked write `a[i] = v` of a working array. -/
def wr {α : Type} (a : List (Option α)) (i : Nat) (v : α) : Option (List (Option α)) :=
  if i < a.length then some (a.set i (some v)) else none

/-- The four working arrays `s`, `w`, `idx_i`, `idx_j` of `evaluateProx`,
with the ghost count of merge steps executed so far. -/
structure Work where
  s : List (Option ℚ)
  w : List (Option ℚ)
  idx_i : List (Option Nat)
  idx_j : List (Option Nat)
  merges : Nat

/-- Which of the four `malloc` calls of `evaluateProx` succeeded. -/
structure Alloc where
  s : Bool
  w : Bool
  idx_i : Bool
  idx_j : Bool
deriving DecidableEq

/-- All four allocations succeed. -/
def Alloc.ok : Alloc := ⟨true, true, true, true⟩

/-- The condition `(s != NULL) && (w != NULL) && (idx_i != NULL) && (idx_j != NULL)`. -/
def Alloc.all (m : Alloc) : Bool := m.s && m.w && m.idx_i && m.idx_j

/-- The working arrays right after allocation. -/
def Work.fresh (n : Nat) : Work :=
  { s := malloc ℚ n, w := malloc ℚ n, idx_i := malloc Nat n, idx_j := malloc Nat n, merges := 0 }

/-! ## The pass over the positions (lines 23-39) -/

/-- Lines 26-29: with stack pointer `k`, at position `i`,
`idx_i[k] = i; idx_j[k] = i; s[k] = y[i] - lambda[i]; w[k] = s[k];`.
The subtraction is exact here; `pushBlockR` rounds it. -/
def pushBlock (y lambda : List ℚ) (a : Work) (k i : Nat) : Option Work := do
  let idx_i ← wr a.idx_i k i
  let idx_j ← wr a.idx_j k i
  let yi ← y[i]?
  let li ← lambda[i]?
  let s ← wr a.s k (yi - li)
  let sk ← rd s k
  let w ← wr a.w k sk
  pure { a with s := s, w := w, idx_i := idx_i, idx_j := idx_j }

/-- Lines 31-36: the loop `while ((k > 0) && (w[k-1] <= w[k])) { k--; ... }` at
position `i`, started with stack pointer equal to the first argument. It
returns the stack pointer at loop exit together with the arrays. The loop
variable `k` decreases at every iteration, so the recursion is structural.
The addition `s[k] += s[k+1]` and the division `s[k]/(i - idx_i[k] + 1)` are
exact here; `mergeLoopR` rounds them. -/
def mergeLoop (i : Nat) : Nat → Work → Option (Nat × Work)
  | 0, a => some (0, a)
  | k + 1, a => do
    let wp ← rd a.w k
    let wt ← rd a.w (k + 1)
    if wp ≤ wt then
      let idx_j ← wr a.idx_j k i
      let sp ← rd a.s k
      let st ← rd a.s (k + 1)
      let s ← wr a.s k (sp + st)
      let lo ← rd a.idx_i k
      if lo ≤ i then
        let sk ← rd s k
        let w ← wr a.w k (sk / ((i - lo + 1 : Nat) : ℚ))
        mergeLoop i k { a with s := s, w := w, idx_j := idx_j, merges := a.merges + 1 }
      else none
    else some (k + 1, a)

/-- The body of the loop `for (i = 0; i < n; i++)` at position `i` with stack
pointer `k` on entry: push, merge, `k++`. -/
def position (y lambda : List ℚ) (i : Nat) (ka : Nat × Work) : Option (Nat × Work) := do
  let a ← pushBlock y lambda ka.2 ka.1 i
  let r ← mergeLoop i ka.1 a
  pure (r.1 + 1, r.2)

/-- The stack pointer `k` and the arrays after the first `m` iterations
`i = 0, ..., m - 1` of the loop `for (i = 0; i < n; i++)`, started from `k = 0`
on freshly allocated arrays of `n` cells. -/
def passState (y lambda : List ℚ) (n : Nat) : Nat → Option (Nat × Work)
  | 0 => some (0, Work.fresh n)
  | m + 1 => (passState y lambda n m).bind (position y lambda m)

/-! ## Writing the output (lines 41-56) -/

/-- The output vector `x`, with the ghost list of the indices written so far. -/
structure Out where
  x : List ℚ
  writes : List Nat
deriving DecidableEq

/-- Checked write `x[p] = d`. -/
def Out.store (o : Out) (p : Nat) (d : ℚ) : Option Out :=
  if p < o.x.length then some ⟨o.x.set p d, o.writes ++ [p]⟩ else none

/-- The index expression `i` of the write `x[i] = d` on line 45. -/
def directIndex (i : Nat) : Option Nat := some i

/-- The index expression `order[i]` of the write `x[order[i]] = d` on line 53:
a checked read of the `int` array `order`; a negative entry is a fault. -/
def orderIndex (order : List Int) (i : Nat) : Option Nat :=
  match order[i]? with
  | some p => if 0 ≤ p then some p.toNat else none
  | none => none

/-- The inner loop `for (i = lo; i <= hi; i++) x[index i] = d`. It runs for the
`hi + 1 - lo` indices `lo, lo + 1, ..., hi` (none if `hi < lo`); the first
argument is that number of iterations still to run, the second is `i`. -/
def fillBlock (index : Nat → Option Nat) (d : ℚ) : Nat → Nat → Out → Option Out
  | 0, _, o => some o
  | c + 1, i, o => do
    let p ← index i
    let o1 ← o.store p d
    fillBlock index d c (i + 1) o1

/-- The loop `for (j = 0; j < k; j++) { d = w[j]; if (d < 0) d = 0; ... }`;
the first argument is the number `k - j` of iterations still to run, the
second is `j`. -/
def writeBlocks (index : Nat → Option Nat) (a : Work) : Nat → Nat → Out → Option Out
  | 0, _, o => some o
  | c + 1, j, o => do
    let d ← rd a.w j
    let d := if d < 0 then 0 else d
    let lo ← rd a.idx_i j
    let hi ← rd a.idx_j j
    let o1 ← fillBlock index d (hi + 1 - lo) lo o
    writeBlocks index a c (j + 1) o1

/-! ## The function -/

/-- What a call of `evaluateProx` leaves behind: the returned `int`, the
contents of `x`, and the two ghost traces. -/
structure Outcome where
  result : Int
  x : List ℚ
  writes : List Nat
  merges : Nat
deriving DecidableEq

/-- `int evaluateProx(double *y, double *lambda, double *x, size_t n, int *order)`.
`mem` is the outcome of the four allocations, `x` the contents of the output
buffer before the call, `order = none` the null pointer. -/
def evaluateProx (mem : Alloc) (y lambda x : List ℚ) (n : Nat) (order : Option (List Int)) :
    Option Outcome :=
  if mem.all then do
    let ka ← passState y lambda n n
    let o ← match order with
      | none => writeBlocks directIndex ka.2 ka.1 0 ⟨x, []⟩
      | some P => writeBlocks (orderIndex P) ka.2 ka.1 0 ⟨x, []⟩
    pure { result := 0, x := o.x, writes := o.writes, merges := ka.2.merges }
  else
    some { result := -1, x := x, writes := [], merges := 0 }


/-! ## Specification-level notions -/

/-- The vector `y - lambda` the pass works on (entries beyond the lists read as `0`). -/
def zOf (y lambda : List ℚ) (t : Nat) : ℚ := y.getD t 0 - lambda.getD t 0

/-- Prefix sum `z 0 + ... + z (m - 1)`. -/
def pre (z : Nat → ℚ) (m : Nat) : ℚ := ∑ t in Finset.range m, z t

/-- A block of the stack: the index range `[i, j]`, its sum `s` and its mean `w`. -/
structure Block where
  i : Nat
  j : Nat
  s : ℚ
  w : ℚ
deriving DecidableEq

/-- The block held in cell `q` of the four working arrays (`idx_i[q]`,
`idx_j[q]`, `s[q]`, `w[q]`), if all four cells have been written. -/
def readBlock (a : Work) (q : Nat) : Option Block := do
  let i ← rd a.idx_i q
  let j ← rd a.idx_j q
  let s ← rd a.s q
  let w ← rd a.w q
  pure ⟨i, j, s, w⟩

/-- The blocks in the cells `k - 1, ..., 0`, in this order (top of the stack first). -/
def readStack (a : Work) : Nat → Option (List Block)
  | 0 => some []
  | k + 1 => do
    let b ← readBlock a k
    let bs ← readStack a k
    pure (b :: bs)

/-- The stack after the first `m` positions have been processed: the blocks
in the cells `0, ..., k - 1`, in this order (bottom of the stack first). -/
def stackAfter (y lambda : List ℚ) (n m : Nat) : Option (List Block) :=
  (passState y lambda n m).bind fun r => (readStack r.2 r.1).map List.reverse

/-- The stack when the pass over all `n` positions is over, bottom first. -/
def finalStack (y lambda : List ℚ) (n : Nat) : Option (List Block) :=
  stackAfter y lambda n n

/-- Cell `q` of the four working arrays holds the block `b`. -/
def Cell (a : Work) (q : Nat) (b : Block) : Prop :=
  rd a.idx_i q = some b.i ∧ rd a.idx_j q = some b.j ∧ rd a.s q = some b.s ∧ rd a.w q = some b.w

/-- The working arrays hold the blocks `bs`, listed from the top of the stack
down: the block at the head of a list of length `l + 1` sits in cell `l`. -/
def Rep (a : Work) : List Block → Prop
  | [] => True
  | b :: bs => Cell a bs.length b ∧ Rep a bs

/-- The arrays `a1` read like `a` in every cell below `m`. -/
def Agree (m : Nat) (a a1 : Work) : Prop :=
  ∀ q, q < m → rd a1.idx_i q = rd a.idx_i q ∧ rd a1.idx_j q = rd a.idx_j q ∧
    rd a1.s q = rd a.s q ∧ rd a1.w q = rd a.w q

/-- All four working arrays have `n` cells. -/
def WorkLen (n : Nat) (a : Work) : Prop :=
  a.s.length = n ∧ a.w.length = n ∧ a.idx_i.length = n ∧ a.idx_j.length = n

/-- A block is consistent with `z`: its sum is that of `z` over its range,
its mean is the sum divided by the length, and no initial part of the range
has a mean above the block mean. -/
def Valid (z : Nat → ℚ) (b : Block) : Prop :=
  b.i ≤ b.j ∧ b.s = pre z (b.j + 1) - pre z b.i ∧
  b.w = b.s / ((b.j - b.i + 1 : Nat) : ℚ) ∧
  ∀ m, b.i ≤ m → m ≤ b.j + 1 → pre z m - pre z b.i ≤ ((m : ℚ) - b.i) * b.w

/-- The blocks `bs` (top first) are consistent, tile `[0, m)` in order, and
their means strictly increase from the top down. -/
def Stk (z : Nat → ℚ) : Nat → List Block → Prop
  | m, [] => m = 0
  | m, b :: bs => m = b.j + 1 ∧ Valid z b ∧ Stk z b.i bs ∧ ∀ p ∈ bs.head?, b.w < p.w

/-- The working arrays hold the blocks `l`, listed from the bottom of the
stack up, in the cells `j, j + 1, ...`. -/
def RepAt (a : Work) : Nat → List Block → Prop
  | _, [] => True
  | j, b :: l => Cell a j b ∧ RepAt a (j + 1) l

/-- The blocks `l` (bottom first) are consistent, tile `[lo, hi)` in order,
and their means strictly decrease from the bottom up. -/
def Cover (z : Nat → ℚ) : Nat → Nat → List Block → Prop
  | lo, hi, [] => lo = hi
  | lo, hi, b :: l => b.i = lo ∧ Valid z b ∧ Cover z (b.j + 1) hi l ∧ ∀ q ∈ l.head?, q.w < b.w

/-- The index function `index` is defined on `[0, n)`, where it agrees with
`p` and stays below `n`. -/
def ValidIndex (n : Nat) (index : Nat → Option Nat) (p : Nat → Nat) : Prop :=
  ∀ t, t < n → index t = some (p t) ∧ p t < n

/-- The function `p` is injective on `[0, n)`. -/
def InjBelow (n : Nat) (p : Nat → Nat) : Prop :=
  ∀ t u, t < n → u < n → p t = p u → t = u

/-- The index of `x` that the output loops write for position `t`: `t` itself
without a permutation, `order[t]` with one. -/
def target : Option (List Int) → Nat → Nat
  | none, t => t
  | some P, t => (P.getD t 0).toNat

/-- The array `order`, when present, has `n` entries, all of them in `[0, n)`. -/
def OrderInRange (n : Nat) : Option (List Int) → Prop
  | none => True
  | some P => P.length = n ∧ ∀ q ∈ P, 0 ≤ q ∧ q < (n : Int)

/-- The array `order`, when present, is a bijection on `[0, n)`: `n` pairwise
distinct entries, all of them in `[0, n)`. -/
def OrderBijective (n : Nat) : Option (List Int) → Prop
  | none => True
  | some P => P.length = n ∧ (∀ q ∈ P, 0 ≤ q ∧ q < (n : Int)) ∧ P.Nodup

/-- The function `xf` takes the clipped mean `max w 0` of the block on the
index range of every block of `l`. -/
def BlockVals (l : List Block) (xf : Nat → ℚ) : Prop :=
  ∀ b ∈ l, ∀ t, b.i ≤ t → t ≤ b.j → xf t = max b.w 0

/-- The vector `v` is in the cone `v 0 ≥ v 1 ≥ ... ≥ v (n - 1) ≥ 0`. -/
def InCone (n : Nat) (v : Nat → ℚ) : Prop :=
  (∀ i, i + 1 < n → v (i + 1) ≤ v i) ∧ ∀ i, i < n → 0 ≤ v i

/-! ## The objective of the prox problem -/

/-- The absolute values of `v` sorted in non-increasing order:
`|v|_(1) ≥ ... ≥ |v|_(n)`. -/
def sortedAbs (v : List ℚ) : List ℚ := (v.map fun a => |a|).insertionSort (· ≥ ·)

/-- Squared distance `sum_i (u_i - v_i)^2` of two vectors of length `n`. -/
def sqDist (n : Nat) (u v : List ℚ) : ℚ := ∑ i in Finset.range n, (u.getD i 0 - v.getD i 0) ^ 2

/-- The sorted-L1 penalty `sum_i lambda_i |v|_(i)`. -/
def sortedL1 (n : Nat) (lambda v : List ℚ) : ℚ :=
  ∑ i in Finset.range n, lambda.getD i 0 * (sortedAbs v).getD i 0

/-- The objective `1/2 sum_i (v_i - y_i)^2 + sum_i lambda_i |v|_(i)` that the
prox of the sorted-L1 penalty minimises. -/
def proxObjective (n : Nat) (y lambda v : List ℚ) : ℚ :=
  1 / 2 * sqDist n v y + sortedL1 n lambda v

/-- Dot product of two lists, up to the length of the shorter. -/
def dot : List ℚ → List ℚ → ℚ
  | a :: as, b :: bs => a * b + dot as bs
  | _, _ => 0

/-! ## Rounded arithmetic

The three arithmetic operations of the pass (the subtraction on line 28, the
addition on line 34 and the division on line 35) are operations on `double`:
each yields the exact result rounded to a representable value. The
definitions below repeat the pass with a rounding function `fl` applied to
the result of each of the three; `fl = id` gives back the exact pass above,
and `fl = fl64` is rounding to nearest, ties to even, with a significand of
53 bits (binary64 without overflow, subnormal numbers, infinities or NaN). The
conversion of the integer `i - idx_i[k] + 1` to `double` is exact. -/

/-- Round to the nearest integer, ties to the even one. -/
def roundHalfEven (r : ℚ) : ℤ :=
  if r - ⌊r⌋ < 1 / 2 then ⌊r⌋
  else if 1 / 2 < r - ⌊r⌋ then ⌊r⌋ + 1
  else if ⌊r⌋ % 2 = 0 then ⌊r⌋ else ⌊r⌋ + 1

/-- Halve `n` until it is below `2`, at most as many times as the first argument. -/
def log2Fuel : Nat → Nat → Nat
  | 0, _ => 0
  | f + 1, n => if 2 ≤ n then log2Fuel f (n / 2) + 1 else 0

/-- The integer part of the binary logarithm of `n` (`0` for `n = 0`). -/
def ilog2 (n : Nat) : Nat := log2Fuel n n

/-- The exponent `e` with `2^e ≤ |q| < 2^(e+1)` of a rational `q ≠ 0`. -/
def binade (q : ℚ) : ℤ :=
  if 1 ≤ |q| then (ilog2 ⌊|q|⌋₊ : ℤ) else -((ilog2 (⌈|q|⁻¹⌉₊ - 1) : ℤ) + 1)

/-- The rational `2^e`. -/
def pow2 (e : ℤ) : ℚ :=
  if 0 ≤ e then ((2 ^ e.toNat : ℕ) : ℚ) else 1 / ((2 ^ (-e).toNat : ℕ) : ℚ)

/-- Rounding of a rational to binary64: the nearest multiple of
`2^(e - 52)`, where `2^e ≤ |q| < 2^(e+1)`, ties to the even multiple. -/
def fl64 (q : ℚ) : ℚ :=
  if q.num = 0 then 0
  else (roundHalfEven (q / pow2 (binade q - 52)) : ℚ) * pow2 (binade q - 52)

/-- Lines 26-29 with the subtraction rounded:
`idx_i[k] = i; idx_j[k] = i; s[k] = fl (y[i] - lambda[i]); w[k] = s[k];`. -/
def pushBlockR (fl : ℚ → ℚ) (y lambda : List ℚ) (a : Work) (k i : Nat) : Option Work := do
  let idx_i ← wr a.idx_i k i
  let idx_j ← wr a.idx_j k i
  let yi ← y[i]?
  let li ← lambda[i]?
  let s ← wr a.s k (fl (yi - li))
  let sk ← rd s k
  let w ← wr a.w k sk
  pure { a with s := s, w := w, idx_i := idx_i, idx_j := idx_j }

/-- Lines 31-36 with the addition and the division rounded: the loop
`while ((k > 0) && (w[k-1] <= w[k])) { k--; idx_j[k] = i;
s[k] = fl (s[k] + s[k+1]); w[k] = fl (s[k] / (i - idx_i[k] + 1)); }`. -/
def mergeLoopR (fl : ℚ → ℚ) (i : Nat) : Nat → Work → Option (Nat × Work)
  | 0, a => some (0, a)
  | k + 1, a => do
    let wp ← rd a.w k
    let wt ← rd a.w (k + 1)
    if wp ≤ wt then
      let idx_j ← wr a.idx_j k i
      let sp ← rd a.s k
      let st ← rd a.s (k + 1)
      let s ← wr a.s k (fl (sp + st))
      let lo ← rd a.idx_i k
      if lo ≤ i then
        let sk ← rd s k
        let w ← wr a.w k (fl (sk / ((i - lo + 1 : Nat) : ℚ)))
        mergeLoopR fl i k { a with s := s, w := w, idx_j := idx_j, merges := a.merges + 1 }
      else none
    else some (k + 1, a)

/-- The body of the loop over the positions, with rounded arithmetic. -/
def positionR (fl : ℚ → ℚ) (y lambda : List ℚ) (i : Nat) (ka : Nat × Work) :
    Option (Nat × Work) := do
  let a ← pushBlockR fl y lambda ka.2 ka.1 i
  let r ← mergeLoopR fl i ka.1 a
  pure (r.1 + 1, r.2)

/-- The stack pointer and the arrays after the first `m` positions, with
rounded arithmetic. -/
def passStateR (fl : ℚ → ℚ) (y lambda : List ℚ) (n : Nat) : Nat → Option (Nat × Work)
  | 0 => some (0, Work.fresh n)
  | m + 1 => (passStateR fl y lambda n m).bind (positionR fl y lambda m)

/-- The stack after the first `m` positions (bottom first), with rounded arithmetic. -/
def stackAfterR (fl : ℚ → ℚ) (y lambda : List ℚ) (n m : Nat) : Option (List Block) :=
  (passStateR fl y lambda n m).bind fun r => (readStack r.2 r.1).map List.reverse

/-- The stack when the pass is over (bottom first), with rounded arithmetic. -/
def finalStackR (fl : ℚ → ℚ) (y lambda : List ℚ) (n : Nat) : Option (List Block) :=
  stackAfterR fl y lambda n n

/-- The function `evaluateProx` with the three arithmetic operations of the
pass rounded by `fl`; the output loops (lines 41-56) compare and copy only. -/
def evaluateProxR (fl : ℚ → ℚ) (mem : Alloc) (y lambda x : List ℚ) (n : Nat)
    (order : Option (List Int)) : Option Outcome :=
  if mem.all then do
    let ka ← passStateR fl y lambda n n
    let o ← match order with
      | none => writeBlocks directIndex ka.2 ka.1 0 ⟨x, []⟩
      | some P => writeBlocks (orderIndex P) ka.2 ka.1 0 ⟨x, []⟩
    pure { result := 0, x := o.x, writes := o.writes, merges := ka.2.merges }
  else
    some { result := -1, x := x, writes := [], merges := 0 }

/-- `Accum fl z a b s`: the value `s` is a sum of `z a, ..., z b` accumulated
the way the pass does it: the rounded entry `fl (z i)` for a single position
(`s[k] = y[i] - lambda[i]`), and the rounded sum of the accumulated sums of
two adjacent ranges (`s[k] += s[k+1]`). -/
inductive Accum (fl : ℚ → ℚ) (z : Nat → ℚ) : Nat → Nat → ℚ → Prop
  | single (i : Nat) : Accum fl z i i (fl (z i))
  | merge {a m b : Nat} {s1 s2 : ℚ} :
      Accum fl z a m s1 → Accum fl z (m + 1) b s2 → Accum fl z a b (fl (s1 + s2))

/-- What holds of a block whatever the rounding: its range is not empty, its
sum is accumulated from the entries of its range, a block of one position has
`w = s`, and a merged block has `w` equal to the rounded quotient of `s` by
its length. -/
def Shape (fl : ℚ → ℚ) (z : Nat → ℚ) (b : Block) : Prop :=
  b.i ≤ b.j ∧ Accum fl z b.i b.j b.s ∧ (b.i = b.j → b.w = b.s) ∧
  (b.i < b.j → b.w = fl (b.s / ((b.j - b.i + 1 : Nat) : ℚ)))

/-- The blocks `bs` (top first) tile `[0, m)` in order, each has the shape
above, and their means strictly increase from the top down. -/
def StkR (fl : ℚ → ℚ) (z : Nat → ℚ) : Nat → List Block → Prop
  | m, [] => m = 0
  | m, b :: bs => m = b.j + 1 ∧ Shape fl z b ∧ StkR fl z b.i bs ∧ ∀ p ∈ bs.head?, b.w < p.w

/-- The blocks `l` (bottom first) tile `[lo, hi)` in order, each has the shape
above, and their means strictly decrease from the bottom up. -/
def Tile (fl : ℚ → ℚ) (z : Nat → ℚ) : Nat → Nat → List Block → Prop
  | lo, hi, [] => lo = hi
  | lo, hi, b :: l => b.i = lo ∧ Shape fl z b ∧ Tile fl z (b.j + 1) hi l ∧ ∀ q ∈ l.head?, q.w < b.w

/-- The stack of `m` blocks of one position each, `[m-1, m-1], ..., [0, 0]`
(top first), with sums and means `v (m - 1), ..., v 0`. -/
def singlesTop (v : Nat → ℚ) : Nat → List Block
  | 0 => []
  | m + 1 => ⟨m, m, v m, v m⟩ :: singlesTop v m

/-! # Lemmas -/

/-! ## Memory lemmas -/

theorem wr_eq_some {α : Type} {a : List (Option α)} {i : Nat} (v : α) (h : i < a.length) :
    wr a i v = some (a.set i (some v)) := by
  simp [wr, h]

theorem rd_set_same {α : Type} {a : List (Option α)} {i : Nat} (v : α) (h : i < a.length) :
    rd (a.set i (some v)) i = some v := by
  simp [rd, List.getD_eq_getElem?_getD, h]

theorem rd_set_other {α : Type} {a : List (Option α)} {i j : Nat} (v : α) (h : i ≠ j) :
    rd (a.set i (some v)) j = rd a j := by
  simp [rd, List.getD_eq_getElem?_getD, List.getElem?_set_ne h]

theorem rd_lt_length {α : Type} {a : List (Option α)} {i : Nat} {v : α} (h : rd a i = some v) :
    i < a.length := by
  by_contra hc
  simp [rd, List.getD_eq_getElem?_getD, List.getElem?_eq_none (not_lt.mp hc)] at h

theorem Rep_frame {a a1 : Work} {m : Nat} (hag : Agree m a a1) :
    ∀ bs : List Block, bs.length ≤ m → Rep a bs → Rep a1 bs
  | [], _, _ => trivial
  | b :: bs, hl, h => by
    have hl1 : bs.length < m := by simpa using hl
    obtain ⟨h1, h2, h3, h4⟩ := hag bs.length hl1
    obtain ⟨⟨c1, c2, c3, c4⟩, hr⟩ := h
    exact ⟨⟨h1.trans c1, h2.trans c2, h3.trans c3, h4.trans c4⟩,
      Rep_frame hag bs (Nat.le_of_lt hl1) hr⟩

theorem pushBlock_spec {n : Nat} {y lambda : List ℚ} {a : Work} {k i : Nat}
    (ha : WorkLen n a) (hk : k < n) (hy : i < y.length) (hl : i < lambda.length) :
    ∃ a1, pushBlock y lambda a k i = some a1 ∧ WorkLen n a1 ∧
      Cell a1 k ⟨i, i, zOf y lambda i, zOf y lambda i⟩ ∧ Agree k a a1 ∧
      a1.merges = a.merges := by
  obtain ⟨hs, hw, hi, hj⟩ := ha
  have ks : k < a.s.length := hs ▸ hk
  have kw : k < a.w.length := hw ▸ hk
  have ki : k < a.idx_i.length := hi ▸ hk
  have kj : k < a.idx_j.length := hj ▸ hk
  refine ⟨{ a with s := a.s.set k (some (zOf y lambda i)), w := a.w.set k (some (zOf y lambda i)),
                   idx_i := a.idx_i.set k (some i), idx_j := a.idx_j.set k (some i) }, ?_, ?_, ?_, ?_, rfl⟩
  · simp [pushBlock, wr_eq_some, ks, kw, ki, kj, List.getElem?_eq_getElem hy,
      List.getElem?_eq_getElem hl, rd_set_same, zOf, List.getD_eq_getElem, hy, hl]
  · simp [WorkLen, hs, hw, hi, hj]
  · exact ⟨rd_set_same _ ki, rd_set_same _ kj, rd_set_same _ ks, rd_set_same _ kw⟩
  · intro q hq
    have hne : k ≠ q := Nat.ne_of_gt hq
    exact ⟨rd_set_other _ hne, rd_set_other _ hne, rd_set_other _ hne, rd_set_other _ hne⟩

/-! ## Arithmetic of blocks -/

theorem Valid.len_cast {z : Nat → ℚ} {b : Block} (h : Valid z b) :
    (((b.j - b.i + 1 : Nat)) : ℚ) = (b.j : ℚ) + 1 - b.i := by
  have := h.1
  push_cast [Nat.cast_sub this]
  ring

theorem Valid.len_pos {z : Nat → ℚ} {b : Block} (h : Valid z b) :
    (0 : ℚ) < (b.j : ℚ) + 1 - b.i := by
  have : (b.i : ℚ) ≤ b.j := by exact_mod_cast h.1
  linarith

theorem Valid.mean_mul {z : Nat → ℚ} {b : Block} (h : Valid z b) :
    b.w * ((b.j : ℚ) + 1 - b.i) = b.s := by
  have hw := h.2.2.1
  rw [h.len_cast] at hw
  rw [hw]
  field_simp [ne_of_gt h.len_pos]

theorem Valid_single (z : Nat → ℚ) (i : Nat) : Valid z ⟨i, i, z i, z i⟩ := by
  refine ⟨le_refl _, ?_, ?_, ?_⟩
  · simp [pre, Finset.sum_range_succ]
  · simp
  · intro m h1 h2
    simp only at h1 h2
    have hm : m = i ∨ m = i + 1 := by omega
    rcases hm with rfl | rfl
    · simp
    · simp [pre, Finset.sum_range_succ]

theorem Valid_merge {z : Nat → ℚ} {p t : Block} (hp : Valid z p) (ht : Valid z t)
    (hadj : t.i = p.j + 1) (hle : p.w ≤ t.w) :
    Valid z ⟨p.i, t.j, p.s + t.s, (p.s + t.s) / ((t.j - p.i + 1 : Nat) : ℚ)⟩ := by
  have hpi : p.i ≤ p.j := hp.1
  have hti : t.i ≤ t.j := ht.1
  have hij : p.i ≤ t.j := by omega
  have hlen : (((t.j - p.i + 1 : Nat)) : ℚ) = (t.j : ℚ) + 1 - p.i := by
    push_cast [Nat.cast_sub hij]; ring
  have hLp := hp.len_pos
  have hLt := ht.len_pos
  have hadjq : (t.i : ℚ) = (p.j : ℚ) + 1 := by exact_mod_cast hadj
  have hL : (0 : ℚ) < (t.j : ℚ) + 1 - p.i := by linarith
  have hmp := hp.mean_mul
  have hmt := ht.mean_mul
  set wM : ℚ := (p.s + t.s) / ((t.j - p.i + 1 : Nat) : ℚ) with hwM
  have hM : wM * ((t.j : ℚ) + 1 - p.i) = p.s + t.s := by
    rw [hwM, hlen]; field_simp [ne_of_gt hL]
  -- the merged mean lies between the two means
  have h1 : (wM - p.w) * ((t.j : ℚ) + 1 - p.i) = ((t.j : ℚ) + 1 - t.i) * (t.w - p.w) := by
    have : (wM - p.w) * ((t.j : ℚ) + 1 - p.i)
        = wM * ((t.j : ℚ) + 1 - p.i) - p.w * ((p.j : ℚ) + 1 - p.i)
          - p.w * ((t.j : ℚ) + 1 - t.i) := by rw [hadjq]; ring
    rw [this, hM, hmp, ← hmt]; ring
  have h2 : (t.w - wM) * ((t.j : ℚ) + 1 - p.i) = ((p.j : ℚ) + 1 - p.i) * (t.w - p.w) := by
    have : (t.w - wM) * ((t.j : ℚ) + 1 - p.i)
        = t.w * ((t.j : ℚ) + 1 - t.i) + t.w * ((p.j : ℚ) + 1 - p.i)
          - wM * ((t.j : ℚ) + 1 - p.i) := by rw [hadjq]; ring
    rw [this, hM, hmt, ← hmp]; ring
  have hd : 0 ≤ t.w - p.w := by linarith
  have hlo : 0 ≤ wM - p.w := by
    have : 0 ≤ (wM - p.w) * ((t.j : ℚ) + 1 - p.i) := by
      rw [h1]; exact mul_nonneg hLt.le hd
    exact nonneg_of_mul_nonneg_left this hL
  have hhi : 0 ≤ t.w - wM := by
    have : 0 ≤ (t.w - wM) * ((t.j : ℚ) + 1 - p.i) := by
      rw [h2]; exact mul_nonneg hLp.le hd
    exact nonneg_of_mul_nonneg_left this hL
  refine ⟨hij, ?_, rfl, ?_⟩
  · show p.s + t.s = pre z (t.j + 1) - pre z p.i
    rw [hp.2.1, ht.2.1, hadj]; ring
  · intro m hm1 hm2
    show pre z m - pre z p.i ≤ ((m : ℚ) - p.i) * wM
    by_cases hc : m ≤ p.j + 1
    · have := hp.2.2.2 m hm1 hc
      have hmq : (0 : ℚ) ≤ (m : ℚ) - p.i := by
        have : (p.i : ℚ) ≤ m := by exact_mod_cast hm1
        linarith
      have := mul_nonneg hmq hlo
      nlinarith
    · have hm3 : t.i ≤ m := by omega
      have := ht.2.2.2 m hm3 hm2
      have hps := hp.2.1
      rw [← hadj] at hps
      have hmq : (0 : ℚ) ≤ (m : ℚ) - t.i := by
        have : (t.i : ℚ) ≤ m := by exact_mod_cast hm3
        linarith
      have hmq2 : (0 : ℚ) ≤ (t.j : ℚ) + 1 - m := by
        have : (m : ℚ) ≤ (t.j : ℚ) + 1 := by exact_mod_cast hm2
        linarith
      have key := mul_nonneg hmq2 hhi
      -- (m - t.i) (t.w - wM) ≤ Lt (t.w - wM) = Lp (wM - p.w)
      have e1 : ((t.j : ℚ) + 1 - t.i) * (t.w - wM) = ((p.j : ℚ) + 1 - p.i) * (wM - p.w) := by
        have : ((t.j : ℚ) + 1 - t.i) * (t.w - wM) - ((p.j : ℚ) + 1 - p.i) * (wM - p.w)
            = t.w * ((t.j : ℚ) + 1 - t.i) + p.w * ((p.j : ℚ) + 1 - p.i)
              - wM * ((t.j : ℚ) + 1 - p.i) := by rw [hadjq]; ring
        have h0 : ((t.j : ℚ) + 1 - t.i) * (t.w - wM) - ((p.j : ℚ) + 1 - p.i) * (wM - p.w) = 0 := by
          rw [this, hM, hmt, hmp]; ring
        linarith
      have e2 : ((m : ℚ) - p.i) * wM
          = ((m : ℚ) - t.i) * wM + ((p.j : ℚ) + 1 - p.i) * wM := by rw [hadjq]; ring
      nlinarith

/-! ## The merge loop and the pass -/

theorem mergeLoop_spec (z : Nat → ℚ) (n i : Nat) :
    ∀ (rest : List Block) (t : Block) (a : Work), WorkLen n a → rest.length < n →
      Rep a (t :: rest) → Valid z t → t.j = i → Stk z t.i rest →
      ∃ k1 a1 bs, mergeLoop i rest.length a = some (k1, a1) ∧ bs.length = k1 + 1 ∧
        WorkLen n a1 ∧ Rep a1 bs ∧ Stk z (i + 1) bs ∧
        a1.merges + bs.length = a.merges + (rest.length + 1)
  | [], t, a, ha, _, hr, hv, hj, hs =>
    ⟨0, a, [t], rfl, rfl, ha, hr, ⟨by rw [hj], hv, hs, by simp⟩, by simp⟩
  | p :: rest, t, a, ha, hn, hr, hv, hj, hs => by
    obtain ⟨ct, cp, hrest⟩ := hr
    obtain ⟨hadj, hvp, hsp, hhead⟩ := hs
    have hlen : (p :: rest).length = rest.length + 1 := rfl
    rw [hlen] at ct hn
    by_cases hle : p.w ≤ t.w
    · obtain ⟨hs, hw, hi, hjl⟩ := ha
      have ks : rest.length < a.s.length := by omega
      have kw : rest.length < a.w.length := by omega
      have kj : rest.length < a.idx_j.length := by omega
      have hlo : p.i ≤ i := by have := hvp.1; have := hv.1; omega
      have hstep : mergeLoop i (rest.length + 1) a
          = mergeLoop i rest.length
              { a with s := a.s.set rest.length (some (p.s + t.s)),
                       w := a.w.set rest.length
                          (some ((p.s + t.s) / ((t.j - p.i + 1 : Nat) : ℚ))),
                       idx_j := a.idx_j.set rest.length (some i),
                       merges := a.merges + 1 } := by
        simp [mergeLoop, cp.1, cp.2.2.1, cp.2.2.2, ct.2.2.1, ct.2.2.2, hle, wr_eq_some, ks, kw,
          kj, rd_set_same, hlo, hj]
      have hne : rest.length ≠ rest.length + 1 := by omega
      obtain ⟨k1, a1, bs, e, hb, hwl, hrep, hstk, hm⟩ :=
        mergeLoop_spec z n i rest ⟨p.i, t.j, p.s + t.s, (p.s + t.s) / ((t.j - p.i + 1 : Nat) : ℚ)⟩
          { a with s := a.s.set rest.length (some (p.s + t.s)),
                   w := a.w.set rest.length
                      (some ((p.s + t.s) / ((t.j - p.i + 1 : Nat) : ℚ))),
                   idx_j := a.idx_j.set rest.length (some i),
                   merges := a.merges + 1 }
          (by simp [WorkLen, hs, hw, hi, hjl]) (by omega)
          ⟨⟨cp.1, by rw [hj]; exact rd_set_same _ kj, rd_set_same _ ks, rd_set_same _ kw⟩,
            Rep_frame (m := rest.length) (a := a)
              (fun q hq => by
                have hq' : rest.length ≠ q := Nat.ne_of_gt hq
                exact ⟨rfl, rd_set_other _ hq', rd_set_other _ hq', rd_set_other _ hq'⟩)
              rest (le_refl _) hrest⟩
          (Valid_merge hvp hv hadj hle) hj hsp
      refine ⟨k1, a1, bs, hstep.trans e, hb, hwl, hrep, hstk, ?_⟩
      simp only [List.length_cons] at hm ⊢
      omega
    · refine ⟨rest.length + 1, a, t :: p :: rest, ?_, rfl, ha, ⟨ct, cp, hrest⟩,
        ⟨by rw [hj], hv, ⟨hadj, hvp, hsp, hhead⟩, ?_⟩, by simp⟩
      · simp [mergeLoop, cp.2.2.2, ct.2.2.2, hle]
      · intro q hq
        simp only [List.head?_cons, Option.mem_def, Option.some.injEq] at hq
        subst hq
        exact lt_of_not_le hle

theorem passState_spec {n : Nat} {y lambda : List ℚ} (hy : y.length = n) (hl : lambda.length = n) :
    ∀ m, m ≤ n → ∃ k a bs, passState y lambda n m = some (k, a) ∧ bs.length = k ∧
      WorkLen n a ∧ Rep a bs ∧ Stk (zOf y lambda) m bs ∧ a.merges + k = m
  | 0, _ => ⟨0, Work.fresh n, [], rfl, rfl, by simp [WorkLen, Work.fresh, malloc], trivial, rfl, rfl⟩
  | m + 1, hm => by
    obtain ⟨k, a, bs, e, hb, hwl, hrep, hstk, hcnt⟩ := passState_spec hy hl m (by omega)
    have hk : k < n := by omega
    obtain ⟨a1, e1, hwl1, hc, hag, hm1⟩ :=
      @pushBlock_spec n y lambda a k m hwl hk (by omega) (by omega)
    have hrep1 : Rep a1 (⟨m, m, zOf y lambda m, zOf y lambda m⟩ :: bs) :=
      ⟨by rw [hb]; exact hc, Rep_frame hag bs (by omega) hrep⟩
    obtain ⟨k2, a2, bs2, e2, hb2, hwl2, hrep2, hstk2, hcnt2⟩ :=
      mergeLoop_spec (zOf y lambda) n m bs ⟨m, m, zOf y lambda m, zOf y lambda m⟩ a1 hwl1
        (by omega) hrep1 (Valid_single _ m) rfl hstk
    refine ⟨k2 + 1, a2, bs2, ?_, hb2, hwl2, hrep2, hstk2, by omega⟩
    rw [hb] at e2
    simp [passState, e, position, e1, e2]

/-! ## From the stack to the tiling, bottom first -/

theorem RepAt_snoc {a : Work} {b : Block} :
    ∀ (l : List Block) (j : Nat), RepAt a j l → Cell a (j + l.length) b → RepAt a j (l ++ [b])
  | [], j, _, hc => ⟨by simpa using hc, trivial⟩
  | c :: l, j, h, hc =>
    ⟨h.1, RepAt_snoc l (j + 1) h.2 (by
      have e : j + 1 + l.length = j + (c :: l).length := by simp; omega
      rw [e]; exact hc)⟩

theorem Rep.toRepAt {a : Work} : ∀ bs : List Block, Rep a bs → RepAt a 0 bs.reverse
  | [], _ => trivial
  | b :: bs, h => by
    rw [List.reverse_cons]
    exact RepAt_snoc _ 0 (Rep.toRepAt bs h.2) (by simpa using h.1)

theorem Cover_snoc {z : Nat → ℚ} {b : Block} (hv : Valid z b) :
    ∀ (l : List Block) (lo : Nat), Cover z lo b.i l → (∀ q ∈ l.getLast?, b.w < q.w) →
      Cover z lo (b.j + 1) (l ++ [b])
  | [], lo, h, _ => ⟨h.symm, hv, rfl, by simp⟩
  | c :: l, lo, h, hq => by
    obtain ⟨h1, h2, h3, h4⟩ := h
    refine ⟨h1, h2, Cover_snoc hv l _ h3 ?_, ?_⟩
    · intro q hmem
      apply hq
      cases l with
      | nil => simp at hmem
      | cons d l => simpa [List.getLast?_cons_cons] using hmem
    · intro q hmem
      cases l with
      | nil =>
        have hmem2 : b = q := by simpa using hmem
        subst hmem2
        exact hq c (by simp)
      | cons d l => exact h4 q (by simpa using hmem)

theorem Stk.toCover {z : Nat → ℚ} : ∀ (bs : List Block) (m : Nat), Stk z m bs → Cover z 0 m bs.reverse
  | [], m, h => by simpa [Cover, Stk] using h.symm
  | b :: bs, m, h => by
    obtain ⟨h1, h2, h3, h4⟩ := h
    rw [List.reverse_cons, h1]
    exact Cover_snoc h2 _ 0 (Stk.toCover bs _ h3) (by simpa using h4)

theorem Cover.le {z : Nat → ℚ} : ∀ (l : List Block) (lo hi : Nat), Cover z lo hi l → lo ≤ hi
  | [], _, _, h => le_of_eq h
  | b :: l, lo, hi, h => by
    have := Cover.le l _ _ h.2.2.1
    have := h.2.1.1
    have := h.1
    omega

theorem Cover.mem {z : Nat → ℚ} : ∀ (l : List Block) (lo hi : Nat), Cover z lo hi l →
    ∀ t, lo ≤ t → t < hi → ∃ b ∈ l, b.i ≤ t ∧ t ≤ b.j
  | [], lo, hi, h, t, h1, h2 => by simp only [Cover] at h; omega
  | b :: l, lo, hi, h, t, h1, h2 => by
    by_cases hc : t ≤ b.j
    · exact ⟨b, by simp, by rw [h.1]; exact h1, hc⟩
    · obtain ⟨c, hc1, hc2⟩ := Cover.mem l _ _ h.2.2.1 t (by omega) h2
      exact ⟨c, by simp [hc1], hc2⟩

/-! ## Writing the output -/

theorem clip_eq_max (d : ℚ) : (if d < 0 then 0 else d) = max d 0 := by
  split_ifs with h
  · exact (max_eq_right h.le).symm
  · exact (max_eq_left (not_lt.mp h)).symm

theorem fillBlock_spec {n : Nat} {index : Nat → Option Nat} {p : Nat → Nat}
    (hp : ValidIndex n index p) (d : ℚ) :
    ∀ (c lo : Nat) (o : Out), lo + c ≤ n → o.x.length = n →
      ∃ o1, fillBlock index d c lo o = some o1 ∧ o1.x.length = n ∧
        o1.writes = o.writes ++ (List.range' lo c).map p ∧
        (∀ q, (∀ t, lo ≤ t → t < lo + c → p t ≠ q) → o1.x[q]? = o.x[q]?) ∧
        (InjBelow n p → ∀ t, lo ≤ t → t < lo + c → o1.x[p t]? = some d)
  | 0, lo, o, _, hx => ⟨o, rfl, hx, by simp, fun _ _ => rfl, fun _ t h1 h2 => by omega⟩
  | c + 1, lo, o, hc, hx => by
    obtain ⟨e, hlt⟩ := hp lo (by omega)
    have hst : o.store (p lo) d = some ⟨o.x.set (p lo) d, o.writes ++ [p lo]⟩ := by
      simp [Out.store, hx, hlt]
    obtain ⟨o1, e1, hx1, hw1, hf1, hv1⟩ :=
      fillBlock_spec hp d c (lo + 1) ⟨o.x.set (p lo) d, o.writes ++ [p lo]⟩ (by omega)
        (by simp [hx])
    refine ⟨o1, by simp [fillBlock, e, hst, e1], hx1, ?_, ?_, ?_⟩
    · rw [hw1]; simp [List.range'_succ]
    · intro q hq
      rw [hf1 q (fun t h1 h2 => hq t (by omega) (by omega))]
      exact List.getElem?_set_ne (hq lo (le_refl _) (by omega))
    · intro hinj t h1 h2
      by_cases ht : t = lo
      · subst ht
        rw [hf1 (p t) (fun u h1 h2 hu => by
          have := hinj u t (by omega) (by omega) hu
          omega)]
        simp [List.getElem?_set_self, hx, hlt]
      · exact hv1 hinj t (by omega) (by omega)

theorem writeBlocks_spec {n : Nat} {index : Nat → Option Nat} {p : Nat → Nat}
    (hp : ValidIndex n index p) (z : Nat → ℚ) (a : Work) :
    ∀ (l : List Block) (j lo : Nat) (o : Out), RepAt a j l → Cover z lo n l → o.x.length = n →
      ∃ o1, writeBlocks index a l.length j o = some o1 ∧ o1.x.length = n ∧
        o1.writes = o.writes ++ (List.range' lo (n - lo)).map p ∧
        (∀ q, (∀ t, lo ≤ t → t < n → p t ≠ q) → o1.x[q]? = o.x[q]?) ∧
        (InjBelow n p → ∀ b ∈ l, ∀ t, b.i ≤ t → t ≤ b.j → o1.x[p t]? = some (max b.w 0))
  | [], j, lo, o, _, hc, hx => by
    simp only [Cover] at hc
    exact ⟨o, rfl, hx, by simp [hc], fun _ _ => rfl, fun _ b hb => by simp at hb⟩
  | b :: l, j, lo, o, hr, hc, hx => by
    obtain ⟨⟨c1, c2, _, c4⟩, hr2⟩ := hr
    obtain ⟨hlo, hv, hc2, _⟩ := hc
    have hle := Cover.le l _ _ hc2
    have hij := hv.1
    obtain ⟨o1, e1, hx1, hw1, hf1, hv1⟩ :=
      fillBlock_spec hp (max b.w 0) (b.j + 1 - b.i) b.i o (by omega) hx
    obtain ⟨o2, e2, hx2, hw2, hf2, hv2⟩ := writeBlocks_spec hp z a l (j + 1) (b.j + 1) o1 hr2 hc2 hx1
    refine ⟨o2, ?_, hx2, ?_, ?_, ?_⟩
    · simp [writeBlocks, c1, c2, c4, clip_eq_max, e1, e2]
    · rw [hw2, hw1, List.append_assoc, ← List.map_append, ← hlo]
      have e : b.i + (b.j + 1 - b.i) = b.j + 1 := by omega
      have := List.range'_append_1 b.i (b.j + 1 - b.i) (n - (b.j + 1))
      rw [e] at this
      rw [this]
      congr 3
      omega
    · intro q hq
      rw [hf2 q (fun t h1 h2 => hq t (by omega) h2)]
      exact hf1 q (fun t h1 h2 => hq t (by omega) (by omega))
    · intro hinj c hcm t h1 h2
      rcases List.mem_cons.mp hcm with rfl | hcl
      · rw [hf2 (p t) (fun u h3 h4 hu => by
          have := hinj u t h4 (by omega) hu
          omega)]
        exact hv1 hinj t h1 (by omega)
      · exact hv2 hinj c hcl t h1 h2

/-! ## The whole function -/

theorem validIndex_direct (n : Nat) : ValidIndex n directIndex (target none) :=
  fun _ ht => ⟨rfl, ht⟩

theorem validIndex_order {n : Nat} {P : List Int} (h : OrderInRange n (some P)) :
    ValidIndex n (orderIndex P) (target (some P)) := by
  intro t ht
  obtain ⟨hlen, hr⟩ := h
  have htl : t < P.length := hlen ▸ ht
  have hmem : P[t] ∈ P := List.getElem_mem htl
  obtain ⟨h0, h1⟩ := hr _ hmem
  refine ⟨?_, ?_⟩
  · simp [orderIndex, target, List.getElem?_eq_getElem htl, h0, List.getD_eq_getElem _ _ htl]
  · simp only [target, List.getD_eq_getElem _ _ htl]
    omega

theorem validIndex_target {n : Nat} :
    ∀ {order : Option (List Int)}, OrderInRange n order →
      ValidIndex n (match order with
        | none => directIndex
        | some P => orderIndex P) (target order)
  | none, _ => validIndex_direct n
  | some _, h => validIndex_order h

theorem OrderBijective.inRange {n : Nat} :
    ∀ {order : Option (List Int)}, OrderBijective n order → OrderInRange n order
  | none, _ => trivial
  | some _, h => ⟨h.1, h.2.1⟩

theorem OrderBijective.inj {n : Nat} :
    ∀ {order : Option (List Int)}, OrderBijective n order → InjBelow n (target order)
  | none, _ => fun _ _ _ _ h => h
  | some P, h => by
    intro t u ht hu e
    obtain ⟨hlen, hr, hnd⟩ := h
    have htl : t < P.length := hlen ▸ ht
    have hul : u < P.length := hlen ▸ hu
    simp only [target, List.getD_eq_getElem _ _ htl, List.getD_eq_getElem _ _ hul] at e
    have h1 := (hr _ (List.getElem_mem htl)).1
    have h2 := (hr _ (List.getElem_mem hul)).1
    have e2 : P[t] = P[u] := by omega
    exact (List.Nodup.getElem_inj_iff hnd).mp e2

theorem Rep.readStack {a : Work} : ∀ bs : List Block, Rep a bs → readStack a bs.length = some bs
  | [], _ => rfl
  | b :: bs, h => by
    obtain ⟨⟨c1, c2, c3, c4⟩, hr⟩ := h
    simp [ProxSortedL1.readStack, readBlock, c1, c2, c3, c4, Rep.readStack bs hr]

theorem stackAfter_spec {n : Nat} {y lambda : List ℚ} (hy : y.length = n) (hl : lambda.length = n)
    (m : Nat) (hm : m ≤ n) :
    ∃ k a l, passState y lambda n m = some (k, a) ∧ stackAfter y lambda n m = some l ∧
      l.length = k ∧ RepAt a 0 l ∧ Cover (zOf y lambda) 0 m l ∧ a.merges + k = m := by
  obtain ⟨k, a, bs, e, hb, _, hrep, hstk, hcnt⟩ := passState_spec hy hl m hm
  refine ⟨k, a, bs.reverse, e, ?_, by simpa using hb, Rep.toRepAt bs hrep,
    Stk.toCover bs m hstk, hcnt⟩
  have := Rep.readStack bs hrep
  rw [hb] at this
  simp [stackAfter, e, this]

theorem evaluateProx_spec {n : Nat} {y lambda : List ℚ} (hy : y.length = n)
    (hl : lambda.length = n) :
    ∃ l, finalStack y lambda n = some l ∧ Cover (zOf y lambda) 0 n l ∧ l.length ≤ n ∧
      ∀ (mem : Alloc) (x : List ℚ) (order : Option (List Int)), mem.all = true →
        x.length = n → OrderInRange n order →
        ∃ xs, evaluateProx mem y lambda x n order
            = some ⟨0, xs, (List.range n).map (target order), n - l.length⟩ ∧
          xs.length = n ∧
          (InjBelow n (target order) →
            ∀ b ∈ l, ∀ t, b.i ≤ t → t ≤ b.j → xs[target order t]? = some (max b.w 0)) := by
  obtain ⟨k, a, l, e, hfin, hlen, hrep, hcov, hcnt⟩ := stackAfter_spec hy hl n (le_refl _)
  refine ⟨l, hfin, hcov, by omega, ?_⟩
  intro mem x order hm hx ho
  obtain ⟨o1, e1, hx1, hw1, _, hv1⟩ :=
    writeBlocks_spec (validIndex_target ho) (zOf y lambda) a l 0 0 ⟨x, []⟩ hrep hcov hx
  refine ⟨o1.x, ?_, hx1, hv1⟩
  rw [hlen] at e1
  have hw : o1.writes = (List.range n).map (target order) := by
    rw [hw1, List.range_eq_range']; simp
  have hmg : a.merges = n - l.length := by omega
  cases order with
  | none => simp [evaluateProx, hm, e, e1, hw, hmg]
  | some P => simp [evaluateProx, hm, e, e1, hw, hmg]

/-! ## Prefix sums -/

theorem pre_succ (z : Nat → ℚ) (m : Nat) : pre z (m + 1) = pre z m + z m := by
  simp [pre, Finset.sum_range_succ]

theorem pre_zero (z : Nat → ℚ) : pre z 0 = 0 := by simp [pre]

theorem pre_congr_sub {f g : Nat → ℚ} {a : Nat} :
    ∀ m, a ≤ m → (∀ t, a ≤ t → t < m → f t = g t) → pre f m - pre f a = pre g m - pre g a := by
  intro m hm
  induction m, hm using Nat.le_induction with
  | base => intro _; simp
  | succ m hm ih =>
    intro h
    rw [pre_succ, pre_succ, h m hm (Nat.lt_succ_self m)]
    have := ih (fun t h1 h2 => h t h1 (by omega))
    linarith

theorem pre_congr {f g : Nat → ℚ} (m : Nat) (h : ∀ t, t < m → f t = g t) : pre f m = pre g m := by
  have := pre_congr_sub (f := f) (g := g) (a := 0) m (Nat.zero_le _) (fun t _ ht => h t ht)
  simpa [pre_zero] using this

theorem pre_const (d : ℚ) (m : Nat) : pre (fun _ => d) m = m * d := by
  simp [pre]

theorem pre_affine (z : Nat → ℚ) (d : ℚ) (m : Nat) :
    pre (fun t => (z t - d) * d) m = (pre z m - m * d) * d := by
  induction m with
  | zero => simp [pre_zero]
  | succ m ih => rw [pre_succ, pre_succ, ih]; push_cast; ring

theorem pre_nonneg {f : Nat → ℚ} (m : Nat) (h : ∀ t, t < m → 0 ≤ f t) : 0 ≤ pre f m :=
  Finset.sum_nonneg (fun t ht => h t (Finset.mem_range.mp ht))

theorem pre_eq_zero {f : Nat → ℚ} (m : Nat) (h : ∀ t, t < m → 0 ≤ f t) (h0 : pre f m ≤ 0) :
    ∀ t, t < m → f t = 0 := by
  intro t ht
  have hz : pre f m = 0 := le_antisymm h0 (pre_nonneg m h)
  exact (Finset.sum_eq_zero_iff_of_nonneg
    (fun t ht => h t (Finset.mem_range.mp ht))).mp hz t (Finset.mem_range.mpr ht)

/-! ## The output as the projection onto the monotone non-negative cone -/

theorem BlockVals.tail {b : Block} {l : List Block} {xf : Nat → ℚ} (h : BlockVals (b :: l) xf) :
    BlockVals l xf :=
  fun c hc => h c (List.mem_cons_of_mem _ hc)

theorem block_pre {b : Block} {xf : Nat → ℚ} (h : ∀ t, b.i ≤ t → t ≤ b.j → xf t = max b.w 0)
    (m : Nat) (h1 : b.i ≤ m) (h2 : m ≤ b.j + 1) :
    pre xf m - pre xf b.i = ((m : ℚ) - b.i) * max b.w 0 := by
  rw [pre_congr_sub (g := fun _ => max b.w 0) m h1 (fun t ht1 ht2 => h t ht1 (by omega)),
    pre_const, pre_const]
  ring

theorem Cover.dominated {z xf : Nat → ℚ} : ∀ (l : List Block) (lo hi : Nat), Cover z lo hi l →
    BlockVals l xf → ∀ m, lo ≤ m → m ≤ hi → pre z m - pre z lo ≤ pre xf m - pre xf lo
  | [], lo, hi, hc, _, m, h1, h2 => by
    simp only [Cover] at hc
    have : m = lo := by omega
    subst this
    simp
  | b :: l, lo, hi, hc, hb, m, h1, h2 => by
    obtain ⟨hlo, hv, hc2, _⟩ := hc
    subst hlo
    have hbv := hb b (List.mem_cons_self _ _)
    have blk : ∀ m, b.i ≤ m → m ≤ b.j + 1 → pre z m - pre z b.i ≤ pre xf m - pre xf b.i := by
      intro m h1 h2
      rw [block_pre hbv m h1 h2]
      have h3 := hv.2.2.2 m h1 h2
      have h4 : (0 : ℚ) ≤ (m : ℚ) - b.i := by
        have : (b.i : ℚ) ≤ m := by exact_mod_cast h1
        linarith
      have h5 : b.w ≤ max b.w 0 := le_max_left _ _
      have := mul_le_mul_of_nonneg_left h5 h4
      linarith
    by_cases hm : m ≤ b.j + 1
    · exact blk m h1 hm
    · have e1 := blk (b.j + 1) (by have := hv.1; omega) (le_refl _)
      have e2 := Cover.dominated l _ _ hc2 hb.tail m (by omega) h2
      linarith

theorem Cover.slack {z xf : Nat → ℚ} : ∀ (l : List Block) (lo hi : Nat), Cover z lo hi l →
    BlockVals l xf →
    pre (fun t => (z t - xf t) * xf t) hi - pre (fun t => (z t - xf t) * xf t) lo = 0
  | [], lo, hi, hc, _ => by
    simp only [Cover] at hc
    subst hc
    simp
  | b :: l, lo, hi, hc, hb => by
    obtain ⟨hlo, hv, hc2, _⟩ := hc
    subst hlo
    have hbv := hb b (List.mem_cons_self _ _)
    have hij := hv.1
    have e1 : pre (fun t => (z t - xf t) * xf t) (b.j + 1) - pre (fun t => (z t - xf t) * xf t) b.i
        = 0 := by
      rw [pre_congr_sub (g := fun t => (z t - max b.w 0) * max b.w 0) (b.j + 1) (by omega)
        (fun t h1 h2 => by simp only; rw [hbv t h1 (by omega)]), pre_affine, pre_affine]
      have hs := hv.2.1
      have hm := hv.mean_mul
      rcases le_total 0 b.w with hw | hw
      · rw [max_eq_left hw]
        have : (pre z (b.j + 1) - ((b.j + 1 : Nat) : ℚ) * b.w) - (pre z b.i - (b.i : ℚ) * b.w)
            = 0 := by
          push_cast
          linarith
        linear_combination b.w * this
      · rw [max_eq_right hw]; ring
    have e2 := Cover.slack l _ _ hc2 hb.tail
    linarith

theorem Cover.nonneg {z xf : Nat → ℚ} {lo hi : Nat} {l : List Block} (hc : Cover z lo hi l)
    (hb : BlockVals l xf) : ∀ t, lo ≤ t → t < hi → 0 ≤ xf t := by
  intro t h1 h2
  obtain ⟨b, hbm, h3, h4⟩ := Cover.mem l lo hi hc t h1 h2
  rw [hb b hbm t h3 h4]
  exact le_max_right _ _

theorem Cover.antitone {z xf : Nat → ℚ} : ∀ (l : List Block) (lo hi : Nat), Cover z lo hi l →
    BlockVals l xf → ∀ t, lo ≤ t → t + 1 < hi → xf (t + 1) ≤ xf t
  | [], lo, hi, hc, _, t, h1, h2 => by simp only [Cover] at hc; omega
  | b :: l, lo, hi, hc, hb, t, h1, h2 => by
    obtain ⟨hlo, hv, hc2, hhd⟩ := hc
    subst hlo
    have hbv := hb b (List.mem_cons_self _ _)
    rcases Nat.lt_trichotomy t b.j with hlt | heq | hgt
    · rw [hbv t h1 (by omega), hbv (t + 1) (by omega) (by omega)]
    · cases l with
      | nil => simp only [Cover] at hc2; omega
      | cons c l =>
        have hcw : c.w < b.w := hhd c (by simp)
        have hci : c.i = b.j + 1 := hc2.1
        have hcv := hb c (by simp)
        rw [hbv t h1 (by omega), hcv (t + 1) (by omega) (by have := hc2.2.1.1; omega)]
        exact max_le_max hcw.le (le_refl _)
    · exact Cover.antitone l _ _ hc2 hb.tail t (by omega) h2

theorem abel_le (c u : Nat → ℚ) : ∀ n, (∀ m, m ≤ n + 1 → pre c m ≤ 0) →
    (∀ i, i + 1 < n + 1 → u (i + 1) ≤ u i) →
    pre (fun t => c t * u t) (n + 1) ≤ pre c (n + 1) * u n
  | 0, _, _ => by simp [pre_succ, pre_zero]
  | n + 1, hc, hu => by
    have ih := abel_le c u n (fun m hm => hc m (by omega)) (fun i hi => hu i (by omega))
    rw [pre_succ, pre_succ c (n + 1)]
    have h1 := hc (n + 1) (by omega)
    have h2 := hu n (by omega)
    nlinarith

theorem cone_inner_le {n : Nat} {c u : Nat → ℚ} (hc : ∀ m, m ≤ n → pre c m ≤ 0)
    (hu : InCone n u) : pre (fun t => c t * u t) n ≤ 0 := by
  cases n with
  | zero => simp [pre_zero]
  | succ n =>
    have h1 := abel_le c u n hc hu.1
    have h2 := hc (n + 1) (le_refl _)
    have h3 := hu.2 n (Nat.lt_succ_self n)
    nlinarith

/-- The projection inequality: a vector of the cone that is dominated in
prefix sums and complementary to its residual is nearest to `z`, with a gap
of at least the squared distance to any other vector of the cone. -/
theorem projection_ineq {n : Nat} {z xf v : Nat → ℚ}
    (hD : ∀ m, m ≤ n → pre z m ≤ pre xf m)
    (hS : pre (fun t => (z t - xf t) * xf t) n = 0) (hv : InCone n v) :
    pre (fun t => (xf t - z t) ^ 2) n + pre (fun t => (v t - xf t) ^ 2) n
      ≤ pre (fun t => (v t - z t) ^ 2) n := by
  have hc : ∀ m, m ≤ n → pre (fun t => z t - xf t) m ≤ 0 := by
    intro m hm
    have : pre (fun t => z t - xf t) m = pre z m - pre xf m := by
      simp [pre, Finset.sum_sub_distrib]
    rw [this]
    linarith [hD m hm]
  have h1 := cone_inner_le hc hv
  have key : pre (fun t => (v t - z t) ^ 2) n
      = pre (fun t => (xf t - z t) ^ 2) n + pre (fun t => (v t - xf t) ^ 2) n
        - 2 * pre (fun t => (z t - xf t) * v t) n
        + 2 * pre (fun t => (z t - xf t) * xf t) n := by
    simp only [pre, Finset.mul_sum, ← Finset.sum_add_distrib, ← Finset.sum_sub_distrib]
    exact Finset.sum_congr rfl (fun t _ => by ring)
  rw [key, hS]
  linarith

theorem Cover.projection {n : Nat} {z xf v : Nat → ℚ} {l : List Block} (hc : Cover z 0 n l)
    (hb : BlockVals l xf) (hv : InCone n v) :
    pre (fun t => (xf t - z t) ^ 2) n + pre (fun t => (v t - xf t) ^ 2) n
      ≤ pre (fun t => (v t - z t) ^ 2) n := by
  apply projection_ineq _ _ hv
  · intro m hm
    have := Cover.dominated l 0 n hc hb m (Nat.zero_le _) hm
    simpa [pre_zero] using this
  · have := Cover.slack l 0 n hc hb
    simpa [pre_zero] using this

theorem Cover.inCone {n : Nat} {z xf : Nat → ℚ} {l : List Block} (hc : Cover z 0 n l)
    (hb : BlockVals l xf) : InCone n xf :=
  ⟨fun t ht => Cover.antitone l 0 n hc hb t (Nat.zero_le _) ht,
   fun t ht => Cover.nonneg hc hb t (Nat.zero_le _) ht⟩

/-! ## The call without a permutation -/

theorem Cover.valid {z : Nat → ℚ} : ∀ (l : List Block) (lo hi : Nat), Cover z lo hi l →
    ∀ b ∈ l, Valid z b ∧ lo ≤ b.i ∧ b.j < hi
  | [], _, _, _, b, hb => by simp at hb
  | c :: l, lo, hi, hc, b, hb => by
    obtain ⟨hlo, hv, hc2, _⟩ := hc
    have hle := Cover.le l _ _ hc2
    rcases List.mem_cons.mp hb with rfl | hbl
    · exact ⟨hv, by omega, by omega⟩
    · obtain ⟨h1, h2, h3⟩ := Cover.valid l _ _ hc2 b hbl
      have := hv.1
      exact ⟨h1, by omega, h3⟩

theorem evaluateProx_direct {n : Nat} {y lambda : List ℚ} (hy : y.length = n)
    (hl : lambda.length = n) :
    ∃ l, finalStack y lambda n = some l ∧ Cover (zOf y lambda) 0 n l ∧ l.length ≤ n ∧
      ∀ (mem : Alloc) (x : List ℚ), mem.all = true → x.length = n →
        ∃ xs, evaluateProx mem y lambda x n none = some ⟨0, xs, List.range n, n - l.length⟩ ∧
          xs.length = n ∧ BlockVals l (fun t => xs.getD t 0) ∧
          ∀ b ∈ l, ∀ t, b.i ≤ t → t ≤ b.j → xs[t]? = some (max b.w 0) := by
  obtain ⟨l, hfin, hcov, hlen, h⟩ := evaluateProx_spec hy hl
  refine ⟨l, hfin, hcov, hlen, ?_⟩
  intro mem x hm hx
  obtain ⟨xs, e, hxs, hv⟩ := h mem x none hm hx trivial
  have hv2 : ∀ b ∈ l, ∀ t, b.i ≤ t → t ≤ b.j → xs[t]? = some (max b.w 0) :=
    fun b hb t h1 h2 => hv (fun _ _ _ _ h => h) b hb t h1 h2
  refine ⟨xs, ?_, hxs, ?_, hv2⟩
  · rw [e]
    have : List.map (target none) (List.range n) = List.range n := by
      have : target none = id := rfl
      rw [this, List.map_id]
    rw [this]
  · intro b hb t h1 h2
    simp [List.getD_eq_getElem?_getD, hv2 b hb t h1 h2]

theorem Alloc.all_ok : Alloc.ok.all = true := rfl

theorem sorted_ge_getD {y : List ℚ} (h : y.Sorted (· ≥ ·)) (i : Nat) (hi : i + 1 < y.length) :
    y.getD (i + 1) 0 ≤ y.getD i 0 := by
  have h1 : i < y.length := by omega
  rw [List.getD_eq_getElem _ _ hi, List.getD_eq_getElem _ _ h1]
  exact List.pairwise_iff_getElem.mp h i (i + 1) h1 hi (Nat.lt_succ_self i)

/-! ## Permutations -/

theorem writes_perm {n : Nat} {p : Nat → Nat} (hlt : ∀ t, t < n → p t < n) (hinj : InjBelow n p) :
    ((List.range n).map p).Perm (List.range n) := by
  have hnd : ((List.range n).map p).Nodup := by
    refine List.Nodup.map_on ?_ (List.nodup_range n)
    intro a ha b hb hab
    exact hinj a b (List.mem_range.mp ha) (List.mem_range.mp hb) hab
  have hsub : (List.range n).map p ⊆ List.range n := by
    intro q hq
    obtain ⟨t, ht, rfl⟩ := List.mem_map.mp hq
    exact List.mem_range.mpr (hlt t (List.mem_range.mp ht))
  exact (List.subperm_of_subset hnd hsub).perm_of_length_le (by simp)

theorem target_lt {n : Nat} {order : Option (List Int)} (ho : OrderInRange n order) :
    ∀ t, t < n → target order t < n :=
  fun t ht => ((validIndex_target ho) t ht).2

theorem target_surj {n : Nat} {order : Option (List Int)} (ho : OrderBijective n order) :
    ∀ q, q < n → ∃ t, t < n ∧ target order t = q := by
  intro q hq
  have hperm := writes_perm (target_lt ho.inRange) ho.inj
  have : q ∈ (List.range n).map (target order) := hperm.mem_iff.mpr (List.mem_range.mpr hq)
  obtain ⟨t, ht, rfl⟩ := List.mem_map.mp this
  exact ⟨t, List.mem_range.mp ht, rfl⟩

theorem evaluateProx_indep {n : Nat} {y lambda x x' : List ℚ} {order : Option (List Int)}
    (hy : y.length = n) (hl : lambda.length = n) (hx : x.length = n) (hx' : x'.length = n)
    (ho : OrderBijective n order) :
    evaluateProx Alloc.ok y lambda x' n order = evaluateProx Alloc.ok y lambda x n order := by
  obtain ⟨l, _, hcov, _, h⟩ := evaluateProx_spec hy hl
  obtain ⟨xs, e, hxs, hv⟩ := h Alloc.ok x order Alloc.all_ok hx ho.inRange
  obtain ⟨xs', e', hxs', hv'⟩ := h Alloc.ok x' order Alloc.all_ok hx' ho.inRange
  have : xs' = xs := by
    apply List.ext_getElem?
    intro q
    by_cases hq : q < n
    · obtain ⟨t, ht, rfl⟩ := target_surj ho q hq
      obtain ⟨b, hbl, h1, h2⟩ := Cover.mem l 0 n hcov t (Nat.zero_le _) ht
      rw [hv ho.inj b hbl t h1 h2, hv' ho.inj b hbl t h1 h2]
    · rw [List.getElem?_eq_none (by omega), List.getElem?_eq_none (by omega)]
  rw [e, e', this]

/-! ## Rearrangement -/

theorem dot_eq_sum : ∀ (a b : List ℚ) (n : Nat), a.length = n → b.length = n →
    dot a b = ∑ i in Finset.range n, a.getD i 0 * b.getD i 0
  | [], [], n, ha, _ => by
    simp only [List.length_nil] at ha
    subst ha
    simp [dot]
  | [], _ :: _, n, ha, hb => by simp at ha hb; omega
  | _ :: _, [], n, ha, hb => by simp at ha hb; omega
  | a :: as, b :: bs, n, ha, hb => by
    cases n with
    | zero => simp at ha
    | succ n =>
      rw [Finset.sum_range_succ', dot, dot_eq_sum as bs n (by simpa using ha) (by simpa using hb)]
      simp [add_comm]

theorem map_sum_eq_sum : ∀ (f : ℚ → ℚ) (a : List ℚ) (n : Nat), a.length = n →
    (a.map f).sum = ∑ i in Finset.range n, f (a.getD i 0)
  | f, [], n, ha => by
    simp only [List.length_nil] at ha
    subst ha
    simp
  | f, a :: as, n, ha => by
    cases n with
    | zero => simp at ha
    | succ n =>
      rw [Finset.sum_range_succ', List.map_cons, List.sum_cons,
        map_sum_eq_sum f as n (by simpa using ha)]
      simp [add_comm]

theorem insert_dot : ∀ (s : List ℚ) (c y0 : ℚ) (ys : List ℚ), s.length = ys.length →
    (y0 :: ys).Sorted (· ≥ ·) →
    c * y0 + dot s ys ≤ dot (s.orderedInsert (· ≥ ·) c) (y0 :: ys)
  | [], c, y0, ys, _, _ => by simp [dot]
  | h :: t, c, y0, [], hl, _ => by simp at hl
  | h :: t, c, y0, y1 :: ys, hl, hs => by
    by_cases hc : c ≥ h
    · have hins : List.orderedInsert (· ≥ ·) c (h :: t) = c :: h :: t := by
        simp [List.orderedInsert, hc]
      rw [hins]
      simp [dot]
    · have hins : List.orderedInsert (· ≥ ·) c (h :: t) = h :: List.orderedInsert (· ≥ ·) c t := by
        simp [List.orderedInsert, hc]
      rw [hins]
      have hs2 : (y1 :: ys).Sorted (· ≥ ·) := (List.sorted_cons.mp hs).2
      have hy : y0 ≥ y1 := (List.sorted_cons.mp hs).1 y1 (by simp)
      have ih := insert_dot t c y1 ys (by simpa using hl) hs2
      have hch : c < h := lt_of_not_ge hc
      simp only [dot] at ih ⊢
      nlinarith [mul_nonneg (sub_nonneg.mpr hch.le) (sub_nonneg.mpr hy)]

theorem sortedAbs_length (v : List ℚ) : (sortedAbs v).length = v.length := by
  simp [sortedAbs, List.length_insertionSort]

theorem sortedAbs_cons (a : ℚ) (v : List ℚ) :
    sortedAbs (a :: v) = (sortedAbs v).orderedInsert (· ≥ ·) |a| := rfl

theorem rearrangement : ∀ (v ys : List ℚ), v.length = ys.length → ys.Sorted (· ≥ ·) →
    (∀ q ∈ ys, 0 ≤ q) → dot v ys ≤ dot (sortedAbs v) ys
  | [], _, _, _, _ => by simp [sortedAbs, dot]
  | a :: v, [], hl, _, _ => by simp at hl
  | a :: v, y0 :: ys, hl, hs, hp => by
    have hs2 : ys.Sorted (· ≥ ·) := (List.sorted_cons.mp hs).2
    have ih := rearrangement v ys (by simpa using hl) hs2 (fun q hq => hp q (by simp [hq]))
    have h0 : 0 ≤ y0 := hp y0 (by simp)
    have h1 := insert_dot (sortedAbs v) |a| y0 ys
      (by rw [sortedAbs_length]; simpa using hl) hs
    rw [sortedAbs_cons]
    have h2 : a * y0 ≤ |a| * y0 := mul_le_mul_of_nonneg_right (le_abs_self a) h0
    simp only [dot] at h1 ⊢
    linarith

theorem sortedAbs_perm (v : List ℚ) : (sortedAbs v).Perm (v.map fun a => |a|) :=
  List.perm_insertionSort _ _

theorem sortedAbs_sorted (v : List ℚ) : (sortedAbs v).Sorted (· ≥ ·) :=
  List.sorted_insertionSort _ _

theorem sortedAbs_nonneg (v : List ℚ) : ∀ q ∈ sortedAbs v, 0 ≤ q := by
  intro q hq
  have := (sortedAbs_perm v).mem_iff.mp hq
  obtain ⟨a, _, rfl⟩ := List.mem_map.mp this
  exact abs_nonneg a

theorem sortedAbs_sq_sum (v : List ℚ) :
    ((sortedAbs v).map fun a => a ^ 2).sum = (v.map fun a => a ^ 2).sum := by
  rw [((sortedAbs_perm v).map _).sum_eq, List.map_map]
  congr 1
  apply List.map_congr_left
  intro a _
  simp

theorem sorted_of_antitone : ∀ l : List ℚ,
    (∀ i, i + 1 < l.length → l.getD (i + 1) 0 ≤ l.getD i 0) → l.Sorted (· ≥ ·)
  | [], _ => List.sorted_nil
  | [a], _ => List.sorted_singleton a
  | a :: c :: l, h => by
    have ih : (c :: l).Sorted (· ≥ ·) := sorted_of_antitone (c :: l) (fun i hi => by
      have := h (i + 1) (by simpa using hi)
      simpa using this)
    refine List.sorted_cons.mpr ⟨?_, ih⟩
    have hac : a ≥ c := by
      have := h 0 (by simp)
      simpa using this
    intro q hq
    rcases List.mem_cons.mp hq with rfl | hq
    · exact hac
    · exact le_trans ((List.sorted_cons.mp ih).1 q hq) hac

theorem sortedAbs_of_cone {xs : List ℚ}
    (hA : ∀ i, i + 1 < xs.length → xs.getD (i + 1) 0 ≤ xs.getD i 0) (hN : ∀ q ∈ xs, 0 ≤ q) :
    sortedAbs xs = xs := by
  have : (xs.map fun a => |a|) = xs := by
    conv_rhs => rw [← List.map_id xs]
    apply List.map_congr_left
    intro a ha
    simp [abs_of_nonneg (hN a ha)]
  rw [sortedAbs, this]
  exact List.Sorted.insertionSort_eq (sorted_of_antitone xs hA)

/-! ## The prox objective -/

theorem sqDist_eq_pre (n : Nat) (w y : List ℚ) :
    sqDist n w y = pre (fun t => (w.getD t 0 - y.getD t 0) ^ 2) n := rfl

theorem sqDist_expand {n : Nat} {u y : List ℚ} (hu : u.length = n) (hy : y.length = n) :
    sqDist n u y = (u.map fun a => a ^ 2).sum - 2 * dot u y + (y.map fun a => a ^ 2).sum := by
  rw [map_sum_eq_sum _ u n hu, map_sum_eq_sum _ y n hy, dot_eq_sum u y n hu hy, sqDist,
    Finset.mul_sum, ← Finset.sum_sub_distrib, ← Finset.sum_add_distrib]
  exact Finset.sum_congr rfl (fun t _ => by ring)

theorem sqDist_sortedAbs_le {n : Nat} {v y : List ℚ} (hv : v.length = n) (hy : y.length = n)
    (hys : y.Sorted (· ≥ ·)) (hyn : ∀ q ∈ y, 0 ≤ q) :
    sqDist n (sortedAbs v) y ≤ sqDist n v y := by
  rw [sqDist_expand (by rw [sortedAbs_length, hv]) hy, sqDist_expand hv hy, sortedAbs_sq_sum]
  have := rearrangement v y (by rw [hv, hy]) hys hyn
  linarith

theorem objective_split (n : Nat) (y lambda w : List ℚ) :
    1 / 2 * sqDist n w y + ∑ i in Finset.range n, lambda.getD i 0 * w.getD i 0
      = 1 / 2 * pre (fun t => (w.getD t 0 - zOf y lambda t) ^ 2) n
        + ∑ i in Finset.range n, (lambda.getD i 0 * y.getD i 0 - lambda.getD i 0 ^ 2 / 2) := by
  simp only [sqDist, pre, Finset.mul_sum, ← Finset.sum_add_distrib]
  refine Finset.sum_congr rfl (fun t _ => ?_)
  simp only [zOf]
  ring

theorem inCone_of_sorted {n : Nat} {u : List ℚ} (hu : u.length = n) (hs : u.Sorted (· ≥ ·))
    (hn : ∀ q ∈ u, 0 ≤ q) : InCone n (fun t => u.getD t 0) := by
  refine ⟨fun i hi => sorted_ge_getD hs i (by omega), fun i hi => ?_⟩
  have hi' : i < u.length := by omega
  simp only [List.getD_eq_getElem _ _ hi']
  exact hn _ (List.getElem_mem hi')

/-- The output of a run whose blocks are `l` minimises the prox objective. -/
theorem objective_min {n : Nat} {y lambda xs : List ℚ} {l : List Block} (hy : y.length = n)
    (hxs : xs.length = n) (hcov : Cover (zOf y lambda) 0 n l)
    (hbv : BlockVals l (fun t => xs.getD t 0)) (hys : y.Sorted (· ≥ ·)) (hyn : ∀ q ∈ y, 0 ≤ q)
    (v : List ℚ) (hv : v.length = n) :
    proxObjective n y lambda xs ≤ proxObjective n y lambda v := by
  have hcone := Cover.inCone hcov hbv
  have hfix : sortedAbs xs = xs := by
    apply sortedAbs_of_cone
    · intro i hi
      exact hcone.1 i (by omega)
    · intro q hq
      obtain ⟨t, ht, rfl⟩ := List.mem_iff_getElem.mp hq
      have h0 : 0 ≤ xs.getD t 0 := hcone.2 t (by omega)
      rwa [List.getD_eq_getElem _ _ ht] at h0
  have hu : InCone n (fun t => (sortedAbs v).getD t 0) :=
    inCone_of_sorted (by rw [sortedAbs_length, hv]) (sortedAbs_sorted v) (sortedAbs_nonneg v)
  have hproj := Cover.projection hcov hbv hu
  have hsq : 0 ≤ pre (fun t => ((sortedAbs v).getD t 0 - xs.getD t 0) ^ 2) n :=
    pre_nonneg n (fun t _ => sq_nonneg _)
  have h1 := sqDist_sortedAbs_le hv hy hys hyn
  have e1 := objective_split n y lambda xs
  have e2 := objective_split n y lambda (sortedAbs v)
  simp only [proxObjective, sortedL1, hfix]
  linarith

/-! ## Inputs that are already in the cone -/

/-- When the clipped input `max(z, 0)` is itself in the cone, it is the output. -/
theorem Cover.clip_fixed {n : Nat} {z xf : Nat → ℚ} {l : List Block} (hc : Cover z 0 n l)
    (hb : BlockVals l xf) (hz : InCone n (fun t => max (z t) 0)) :
    ∀ t, t < n → xf t = max (z t) 0 := by
  have hcone := Cover.inCone hc hb
  have hproj := Cover.projection hc hb hz
  have hpt : ∀ t, t < n → (max (z t) 0 - z t) ^ 2 ≤ (xf t - z t) ^ 2 := by
    intro t ht
    have hx := hcone.2 t ht
    rcases le_total 0 (z t) with h | h
    · rw [max_eq_left h]
      have : (z t - z t) ^ 2 = 0 := by ring
      rw [this]
      exact sq_nonneg _
    · rw [max_eq_right h]
      nlinarith
  have hle : pre (fun t => (max (z t) 0 - z t) ^ 2) n ≤ pre (fun t => (xf t - z t) ^ 2) n :=
    Finset.sum_le_sum (fun t ht => hpt t (Finset.mem_range.mp ht))
  have h0 : pre (fun t => (max (z t) 0 - xf t) ^ 2) n ≤ 0 := by linarith
  intro t ht
  have := pre_eq_zero n (fun t _ => sq_nonneg (max (z t) 0 - xf t)) h0 t ht
  have h2 : max (z t) 0 - xf t = 0 := by
    simpa using this
  linarith

theorem getD_of_all_zero {lambda : List ℚ} (hz : ∀ q ∈ lambda, q = 0) (t : Nat) :
    lambda.getD t 0 = 0 := by
  by_cases ht : t < lambda.length
  · rw [List.getD_eq_getElem _ _ ht]
    exact hz _ (List.getElem_mem ht)
  · rw [List.getD_eq_default _ _ (not_lt.mp ht)]


/-! ## Shape of the stack -/

theorem Cover.ne_nil {z : Nat → ℚ} {lo hi : Nat} {l : List Block} (hc : Cover z lo hi l)
    (h : lo < hi) : l ≠ [] := by
  rintro rfl
  simp only [Cover] at hc
  omega

theorem Cover.head_start {z : Nat → ℚ} {lo hi : Nat} {l : List Block} (hc : Cover z lo hi l) :
    ∀ b, l[0]? = some b → b.i = lo := by
  intro b hb
  cases l with
  | nil => simp at hb
  | cons c l =>
    have : c = b := by simpa using hb
    subst this
    exact hc.1

theorem Cover.last_end {z : Nat → ℚ} : ∀ (l : List Block) (lo hi : Nat), Cover z lo hi l →
    ∀ b, l.getLast? = some b → b.j + 1 = hi
  | [], _, _, _, b, hb => by simp at hb
  | [c], _, _, hc, b, hb => by
    have : c = b := by simpa using hb
    subst this
    exact hc.2.2.1
  | c :: d :: l, _, _, hc, b, hb => by
    rw [List.getLast?_cons_cons] at hb
    exact Cover.last_end (d :: l) _ _ hc.2.2.1 b hb

theorem Cover.adjacent {z : Nat → ℚ} : ∀ (l : List Block) (lo hi : Nat), Cover z lo hi l →
    ∀ j b c, l[j]? = some b → l[j + 1]? = some c → c.i = b.j + 1 ∧ c.w < b.w
  | [], _, _, _, j, b, c, hb, _ => by simp at hb
  | d :: l, _, _, hc, 0, b, c, hb, hcc => by
    have hdb : d = b := by simpa using hb
    subst hdb
    cases l with
    | nil => simp at hcc
    | cons e l =>
      have hec : e = c := by simpa using hcc
      subst hec
      exact ⟨hc.2.2.1.1, hc.2.2.2 e (by simp)⟩
  | d :: l, _, _, hc, j + 1, b, c, hb, hcc =>
    Cover.adjacent l _ _ hc.2.2.1 j b c (by simpa using hb) (by simpa using hcc)

theorem Cover.starts_sorted {z : Nat → ℚ} : ∀ (l : List Block) (lo hi : Nat), Cover z lo hi l →
    l.Pairwise (fun b c => b.j < c.i)
  | [], _, _, _ => List.Pairwise.nil
  | d :: l, _, _, hc => by
    refine List.Pairwise.cons ?_ (Cover.starts_sorted l _ _ hc.2.2.1)
    intro c hcl
    have := (Cover.valid l _ _ hc.2.2.1 c hcl).2.1
    omega

theorem Cover.means_sorted {z : Nat → ℚ} : ∀ (l : List Block) (lo hi : Nat), Cover z lo hi l →
    l.Pairwise (fun b c => c.w < b.w)
  | [], _, _, _ => List.Pairwise.nil
  | d :: l, _, _, hc => by
    have ih := Cover.means_sorted l _ _ hc.2.2.1
    refine List.Pairwise.cons ?_ ih
    intro c hcl
    cases l with
    | nil => simp at hcl
    | cons e l =>
      have hed : e.w < d.w := hc.2.2.2 e (by simp)
      rcases List.mem_cons.mp hcl with rfl | hcl
      · exact hed
      · exact lt_trans (List.rel_of_pairwise_cons ih hcl) hed

theorem pre_sub_nonpos {z : Nat → ℚ} {a : Nat} :
    ∀ m, a ≤ m → (∀ t, a ≤ t → t < m → z t ≤ 0) → pre z m - pre z a ≤ 0 := by
  intro m hm
  induction m, hm using Nat.le_induction with
  | base => intro _; simp
  | succ m hm ih =>
    intro h
    rw [pre_succ]
    have := ih (fun t h1 h2 => h t h1 (by omega))
    have := h m hm (Nat.lt_succ_self m)
    linarith

theorem Valid.mean_nonpos {z : Nat → ℚ} {b : Block} (h : Valid z b)
    (hz : ∀ t, b.i ≤ t → t ≤ b.j → z t ≤ 0) : b.w ≤ 0 := by
  have hs : b.s ≤ 0 := by
    rw [h.2.1]
    exact pre_sub_nonpos (b.j + 1) (by have := h.1; omega) (fun t h1 h2 => hz t h1 (by omega))
  have hm := h.mean_mul
  have hp := h.len_pos
  by_contra hc
  have : 0 < b.w * ((b.j : ℚ) + 1 - b.i) := mul_pos (lt_of_not_ge hc) hp
  linarith

theorem RepAt.cell {a : Work} : ∀ (l : List Block) (j0 : Nat), RepAt a j0 l →
    ∀ q b, l[q]? = some b → Cell a (j0 + q) b
  | [], _, _, q, b, hb => by simp at hb
  | c :: l, j0, h, 0, b, hb => by
    have : c = b := by simpa using hb
    subst this
    exact h.1
  | c :: l, j0, h, q + 1, b, hb => by
    have := RepAt.cell l (j0 + 1) h.2 q b (by simpa using hb)
    have e : j0 + 1 + q = j0 + (q + 1) := by omega
    rw [e] at this
    exact this

/-! ## The faults of the checked semantics -/

theorem rd_none_of_le {α : Type} (a : List (Option α)) (i : Nat) (h : a.length ≤ i) :
    rd a i = none := by
  simp [rd, List.getD_eq_getElem?_getD, List.getElem?_eq_none h]

theorem wr_none_of_le {α : Type} (a : List (Option α)) (i : Nat) (v : α) (h : a.length ≤ i) :
    wr a i v = none := by
  simp [wr, Nat.not_lt.mpr h]

theorem store_none_of_le (o : Out) (p : Nat) (d : ℚ) (h : o.x.length ≤ p) :
    o.store p d = none := by
  simp [Out.store, Nat.not_lt.mpr h]

theorem mergeLoop_underflow (i k lo : Nat) (a : Work) (wp wt : ℚ) (h1 : rd a.w k = some wp)
    (h2 : rd a.w (k + 1) = some wt) (hle : wp ≤ wt) (h3 : rd a.idx_i k = some lo)
    (hlt : i < lo) : mergeLoop i (k + 1) a = none := by
  simp only [mergeLoop, h1, h2, hle, h3, Nat.not_le.mpr hlt, Option.bind_eq_bind,
    Option.some_bind, if_true, if_false]
  cases wr a.idx_j k i <;> cases rd a.s k <;> cases rd a.s (k + 1) <;>
    simp only [Option.some_bind, Option.none_bind]
  rename_i v sp st
  cases wr a.s k (sp + st) <;> rfl

/-! ## Zero weights -/

theorem evaluateProx_zero_clip {n : Nat} {y lambda x : List ℚ} (hy : y.length = n)
    (hl : lambda.length = n) (hx : x.length = n) (hys : y.Sorted (· ≥ ·))
    (hz : ∀ q ∈ lambda, q = 0) :
    ∃ out, evaluateProx Alloc.ok y lambda x n none = some out ∧ out.result = 0 ∧
      out.x = y.map (fun a => max a 0) := by
  obtain ⟨l, _, hcov, _, h⟩ := evaluateProx_direct hy hl
  obtain ⟨xs, e, hxs, hbv, _⟩ := h Alloc.ok x Alloc.all_ok hx
  have hzy : ∀ t, zOf y lambda t = y.getD t 0 := by
    intro t
    rw [zOf, getD_of_all_zero hz t, sub_zero]
  have hcone : InCone n (fun t => max (zOf y lambda t) 0) := by
    refine ⟨fun i hi => ?_, fun i _ => le_max_right _ _⟩
    simp only [hzy]
    exact max_le_max (sorted_ge_getD hys i (by omega)) (le_refl _)
  have hfix := Cover.clip_fixed hcov hbv hcone
  refine ⟨_, e, rfl, ?_⟩
  show xs = y.map (fun a => max a 0)
  apply List.ext_getElem (by simp [hxs, hy])
  intro t h1 h2
  have ht : t < n := by omega
  have := hfix t ht
  simp only [hzy, List.getD_eq_getElem _ _ h1,
    List.getD_eq_getElem _ _ (show t < y.length by omega)] at this
  simpa using this

theorem map_clip_of_nonneg {xs : List ℚ} (h : ∀ q ∈ xs, 0 ≤ q) :
    xs.map (fun a => max a 0) = xs := by
  conv_rhs => rw [← List.map_id xs]
  apply List.map_congr_left
  intro a ha
  simp [max_eq_left (h a ha)]

theorem nonneg_of_inCone {n : Nat} {xs : List ℚ} (hxs : xs.length = n)
    (h : InCone n (fun t => xs.getD t 0)) : ∀ q ∈ xs, 0 ≤ q := by
  intro q hq
  obtain ⟨t, ht, rfl⟩ := List.mem_iff_getElem.mp hq
  have h0 : 0 ≤ xs.getD t 0 := h.2 t (by omega)
  rwa [List.getD_eq_getElem _ _ ht] at h0

theorem sorted_of_inCone {n : Nat} {xs : List ℚ} (hxs : xs.length = n)
    (h : InCone n (fun t => xs.getD t 0)) : xs.Sorted (· ≥ ·) :=
  sorted_of_antitone xs (fun i hi => h.1 i (by omega))

/-! ## The pass with rounded arithmetic -/

theorem pushBlockR_id (y lambda : List ℚ) (a : Work) (k i : Nat) :
    pushBlockR id y lambda a k i = pushBlock y lambda a k i := rfl

theorem mergeLoopR_id (i : Nat) : ∀ (k : Nat) (a : Work), mergeLoopR id i k a = mergeLoop i k a
  | 0, _ => rfl
  | k + 1, a => by
    simp only [mergeLoopR, mergeLoop, id]
    refine bind_congr (fun wp => bind_congr (fun wt => ?_))
    split_ifs with h
    · refine bind_congr (fun idx_j => bind_congr (fun sp => bind_congr (fun st =>
        bind_congr (fun s => bind_congr (fun lo => ?_)))))
      split_ifs with h2
      · refine bind_congr (fun sk => bind_congr (fun w => ?_))
        exact mergeLoopR_id i k _
      · rfl
    · rfl

theorem passStateR_id (y lambda : List ℚ) (n : Nat) :
    ∀ m, passStateR id y lambda n m = passState y lambda n m
  | 0 => rfl
  | m + 1 => by
    simp only [passStateR, passState, passStateR_id y lambda n m]
    congr 1
    funext ka
    simp only [positionR, position, pushBlockR_id, mergeLoopR_id]

theorem evaluateProxR_id (mem : Alloc) (y lambda x : List ℚ) (n : Nat)
    (order : Option (List Int)) :
    evaluateProxR id mem y lambda x n order = evaluateProx mem y lambda x n order := by
  simp only [evaluateProxR, evaluateProx, passStateR_id]

theorem finalStackR_id (y lambda : List ℚ) (n : Nat) :
    finalStackR id y lambda n = finalStack y lambda n := by
  simp only [finalStackR, finalStack, stackAfterR, stackAfter, passStateR_id]

theorem pushBlockR_spec (fl : ℚ → ℚ) {n : Nat} {y lambda : List ℚ} {a : Work} {k i : Nat}
    (ha : WorkLen n a) (hk : k < n) (hy : i < y.length) (hl : i < lambda.length) :
    ∃ a1, pushBlockR fl y lambda a k i = some a1 ∧ WorkLen n a1 ∧
      Cell a1 k ⟨i, i, fl (zOf y lambda i), fl (zOf y lambda i)⟩ ∧ Agree k a a1 ∧
      a1.merges = a.merges := by
  obtain ⟨hs, hw, hi, hj⟩ := ha
  have ks : k < a.s.length := hs ▸ hk
  have kw : k < a.w.length := hw ▸ hk
  have ki : k < a.idx_i.length := hi ▸ hk
  have kj : k < a.idx_j.length := hj ▸ hk
  refine ⟨{ a with s := a.s.set k (some (fl (zOf y lambda i))),
                   w := a.w.set k (some (fl (zOf y lambda i))),
                   idx_i := a.idx_i.set k (some i), idx_j := a.idx_j.set k (some i) },
    ?_, ?_, ?_, ?_, rfl⟩
  · simp [pushBlockR, wr_eq_some, ks, kw, ki, kj, List.getElem?_eq_getElem hy,
      List.getElem?_eq_getElem hl, rd_set_same, zOf, List.getD_eq_getElem, hy, hl]
  · simp [WorkLen, hs, hw, hi, hj]
  · exact ⟨rd_set_same _ ki, rd_set_same _ kj, rd_set_same _ ks, rd_set_same _ kw⟩
  · intro q hq
    have hne : k ≠ q := Nat.ne_of_gt hq
    exact ⟨rd_set_other _ hne, rd_set_other _ hne, rd_set_other _ hne, rd_set_other _ hne⟩

theorem Shape_single (fl : ℚ → ℚ) (z : Nat → ℚ) (i : Nat) :
    Shape fl z ⟨i, i, fl (z i), fl (z i)⟩ :=
  ⟨le_refl _, Accum.single i, fun _ => rfl, fun h => absurd h (lt_irrefl _)⟩

theorem mergeLoopR_spec (fl : ℚ → ℚ) (z : Nat → ℚ) (n i : Nat) :
    ∀ (rest : List Block) (t : Block) (a : Work), WorkLen n a → rest.length < n →
      Rep a (t :: rest) → Shape fl z t → t.j = i → StkR fl z t.i rest →
      ∃ k1 a1 bs, mergeLoopR fl i rest.length a = some (k1, a1) ∧ bs.length = k1 + 1 ∧
        WorkLen n a1 ∧ Rep a1 bs ∧ StkR fl z (i + 1) bs ∧
        a1.merges + bs.length = a.merges + (rest.length + 1)
  | [], t, a, ha, _, hr, hv, hj, hs =>
    ⟨0, a, [t], rfl, rfl, ha, hr, ⟨by rw [hj], hv, hs, by simp⟩, by simp⟩
  | p :: rest, t, a, ha, hn, hr, hv, hj, hs => by
    obtain ⟨ct, cp, hrest⟩ := hr
    obtain ⟨hadj, hvp, hsp, hhead⟩ := hs
    have hlen : (p :: rest).length = rest.length + 1 := rfl
    rw [hlen] at ct hn
    by_cases hle : p.w ≤ t.w
    · obtain ⟨hs, hw, hi, hjl⟩ := ha
      have ks : rest.length < a.s.length := by omega
      have kw : rest.length < a.w.length := by omega
      have kj : rest.length < a.idx_j.length := by omega
      have hlo : p.i ≤ i := by have := hvp.1; have := hv.1; omega
      have hstep : mergeLoopR fl i (rest.length + 1) a
          = mergeLoopR fl i rest.length
              { a with s := a.s.set rest.length (some (fl (p.s + t.s))),
                       w := a.w.set rest.length
                          (some (fl (fl (p.s + t.s) / ((t.j - p.i + 1 : Nat) : ℚ)))),
                       idx_j := a.idx_j.set rest.length (some i),
                       merges := a.merges + 1 } := by
        simp [mergeLoopR, cp.1, cp.2.2.1, cp.2.2.2, ct.2.2.1, ct.2.2.2, hle, wr_eq_some, ks, kw,
          kj, rd_set_same, hlo, hj]
      have hshape : Shape fl z ⟨p.i, t.j, fl (p.s + t.s),
          fl (fl (p.s + t.s) / ((t.j - p.i + 1 : Nat) : ℚ))⟩ := by
        have h1 := hvp.1
        have h2 := hv.1
        have hacc : Accum fl z (p.j + 1) t.j t.s := hadj ▸ hv.2.1
        refine ⟨by show p.i ≤ t.j; omega, Accum.merge hvp.2.1 hacc, fun h => ?_, fun _ => rfl⟩
        have : p.i = t.j := h
        omega
      obtain ⟨k1, a1, bs, e, hb, hwl, hrep, hstk, hm⟩ :=
        mergeLoopR_spec fl z n i rest
          ⟨p.i, t.j, fl (p.s + t.s), fl (fl (p.s + t.s) / ((t.j - p.i + 1 : Nat) : ℚ))⟩
          { a with s := a.s.set rest.length (some (fl (p.s + t.s))),
                   w := a.w.set rest.length
                      (some (fl (fl (p.s + t.s) / ((t.j - p.i + 1 : Nat) : ℚ)))),
                   idx_j := a.idx_j.set rest.length (some i),
                   merges := a.merges + 1 }
          (by simp [WorkLen, hs, hw, hi, hjl]) (by omega)
          ⟨⟨cp.1, by rw [hj]; exact rd_set_same _ kj, rd_set_same _ ks, rd_set_same _ kw⟩,
            Rep_frame (m := rest.length) (a := a)
              (fun q hq => by
                have hq' : rest.length ≠ q := Nat.ne_of_gt hq
                exact ⟨rfl, rd_set_other _ hq', rd_set_other _ hq', rd_set_other _ hq'⟩)
              rest (le_refl _) hrest⟩
          hshape hj hsp
      refine ⟨k1, a1, bs, hstep.trans e, hb, hwl, hrep, hstk, ?_⟩
      simp only [List.length_cons] at hm ⊢
      omega
    · refine ⟨rest.length + 1, a, t :: p :: rest, ?_, rfl, ha, ⟨ct, cp, hrest⟩,
        ⟨by rw [hj], hv, ⟨hadj, hvp, hsp, hhead⟩, ?_⟩, by simp⟩
      · simp [mergeLoopR, cp.2.2.2, ct.2.2.2, hle]
      · intro q hq
        simp only [List.head?_cons, Option.mem_def, Option.some.injEq] at hq
        subst hq
        exact lt_of_not_le hle

theorem passStateR_spec (fl : ℚ → ℚ) {n : Nat} {y lambda : List ℚ} (hy : y.length = n)
    (hl : lambda.length = n) :
    ∀ m, m ≤ n → ∃ k a bs, passStateR fl y lambda n m = some (k, a) ∧ bs.length = k ∧
      WorkLen n a ∧ Rep a bs ∧ StkR fl (zOf y lambda) m bs ∧ a.merges + k = m
  | 0, _ => ⟨0, Work.fresh n, [], rfl, rfl, by simp [WorkLen, Work.fresh, malloc], trivial, rfl, rfl⟩
  | m + 1, hm => by
    obtain ⟨k, a, bs, e, hb, hwl, hrep, hstk, hcnt⟩ := passStateR_spec fl hy hl m (by omega)
    have hk : k < n := by omega
    obtain ⟨a1, e1, hwl1, hc, hag, hm1⟩ :=
      @pushBlockR_spec fl n y lambda a k m hwl hk (by omega) (by omega)
    have hrep1 : Rep a1 (⟨m, m, fl (zOf y lambda m), fl (zOf y lambda m)⟩ :: bs) :=
      ⟨by rw [hb]; exact hc, Rep_frame hag bs (by omega) hrep⟩
    obtain ⟨k2, a2, bs2, e2, hb2, hwl2, hrep2, hstk2, hcnt2⟩ :=
      mergeLoopR_spec fl (zOf y lambda) n m bs ⟨m, m, fl (zOf y lambda m), fl (zOf y lambda m)⟩ a1 hwl1
        (by omega) hrep1 (Shape_single fl (zOf y lambda) m) rfl hstk
    refine ⟨k2 + 1, a2, bs2, ?_, hb2, hwl2, hrep2, hstk2, by omega⟩
    rw [hb] at e2
    simp [passStateR, e, positionR, e1, e2]

theorem Tile_snoc {fl : ℚ → ℚ} {z : Nat → ℚ} {b : Block} (hv : Shape fl z b) :
    ∀ (l : List Block) (lo : Nat), Tile fl z lo b.i l → (∀ q ∈ l.getLast?, b.w < q.w) →
      Tile fl z lo (b.j + 1) (l ++ [b])
  | [], lo, h, _ => ⟨h.symm, hv, rfl, by simp⟩
  | c :: l, lo, h, hq => by
    obtain ⟨h1, h2, h3, h4⟩ := h
    refine ⟨h1, h2, Tile_snoc hv l _ h3 ?_, ?_⟩
    · intro q hmem
      apply hq
      cases l with
      | nil => simp at hmem
      | cons d l => simpa [List.getLast?_cons_cons] using hmem
    · intro q hmem
      cases l with
      | nil =>
        have hmem2 : b = q := by simpa using hmem
        subst hmem2
        exact hq c (by simp)
      | cons d l => exact h4 q (by simpa using hmem)

theorem StkR.toTile {fl : ℚ → ℚ} {z : Nat → ℚ} :
    ∀ (bs : List Block) (m : Nat), StkR fl z m bs → Tile fl z 0 m bs.reverse
  | [], m, h => by simpa [Tile, StkR] using h.symm
  | b :: bs, m, h => by
    obtain ⟨h1, h2, h3, h4⟩ := h
    rw [List.reverse_cons, h1]
    exact Tile_snoc h2 _ 0 (StkR.toTile bs _ h3) (by simpa using h4)

theorem Tile.bounds {fl : ℚ → ℚ} {z : Nat → ℚ} :
    ∀ (l : List Block) (lo hi : Nat), Tile fl z lo hi l → lo ≤ hi
  | [], _, _, h => le_of_eq h
  | b :: l, lo, hi, h => by
    have := Tile.bounds l _ _ h.2.2.1
    have := h.2.1.1
    have := h.1
    omega

theorem Tile.covers {fl : ℚ → ℚ} {z : Nat → ℚ} :
    ∀ (l : List Block) (lo hi : Nat), Tile fl z lo hi l →
    ∀ t, lo ≤ t → t < hi → ∃ b ∈ l, b.i ≤ t ∧ t ≤ b.j
  | [], lo, hi, h, t, h1, h2 => by simp only [Tile] at h; omega
  | b :: l, lo, hi, h, t, h1, h2 => by
    by_cases hc : t ≤ b.j
    · exact ⟨b, by simp, by rw [h.1]; exact h1, hc⟩
    · obtain ⟨c, hc1, hc2⟩ := Tile.covers l _ _ h.2.2.1 t (by omega) h2
      exact ⟨c, by simp [hc1], hc2⟩

theorem Tile.shape {fl : ℚ → ℚ} {z : Nat → ℚ} :
    ∀ (l : List Block) (lo hi : Nat), Tile fl z lo hi l →
    ∀ b ∈ l, Shape fl z b ∧ lo ≤ b.i ∧ b.j < hi
  | [], _, _, _, b, hb => by simp at hb
  | c :: l, lo, hi, hc, b, hb => by
    obtain ⟨hlo, hv, hc2, _⟩ := hc
    have hle := Tile.bounds l _ _ hc2
    rcases List.mem_cons.mp hb with rfl | hbl
    · exact ⟨hv, by omega, by omega⟩
    · obtain ⟨h1, h2, h3⟩ := Tile.shape l _ _ hc2 b hbl
      have := hv.1
      exact ⟨h1, by omega, h3⟩

theorem writeBlocks_tile {n : Nat} {index : Nat → Option Nat} {p : Nat → Nat}
    (hp : ValidIndex n index p) (fl : ℚ → ℚ) (z : Nat → ℚ) (a : Work) :
    ∀ (l : List Block) (j lo : Nat) (o : Out), RepAt a j l → Tile fl z lo n l →
      o.x.length = n →
      ∃ o1, writeBlocks index a l.length j o = some o1 ∧ o1.x.length = n ∧
        o1.writes = o.writes ++ (List.range' lo (n - lo)).map p ∧
        (∀ q, (∀ t, lo ≤ t → t < n → p t ≠ q) → o1.x[q]? = o.x[q]?) ∧
        (InjBelow n p → ∀ b ∈ l, ∀ t, b.i ≤ t → t ≤ b.j → o1.x[p t]? = some (max b.w 0))
  | [], j, lo, o, _, hc, hx => by
    simp only [Tile] at hc
    exact ⟨o, rfl, hx, by simp [hc], fun _ _ => rfl, fun _ b hb => by simp at hb⟩
  | b :: l, j, lo, o, hr, hc, hx => by
    obtain ⟨⟨c1, c2, _, c4⟩, hr2⟩ := hr
    obtain ⟨hlo, hv, hc2, _⟩ := hc
    have hle := Tile.bounds l _ _ hc2
    have hij := hv.1
    obtain ⟨o1, e1, hx1, hw1, hf1, hv1⟩ :=
      fillBlock_spec hp (max b.w 0) (b.j + 1 - b.i) b.i o (by omega) hx
    obtain ⟨o2, e2, hx2, hw2, hf2, hv2⟩ :=
      writeBlocks_tile hp fl z a l (j + 1) (b.j + 1) o1 hr2 hc2 hx1
    refine ⟨o2, ?_, hx2, ?_, ?_, ?_⟩
    · simp [writeBlocks, c1, c2, c4, clip_eq_max, e1, e2]
    · rw [hw2, hw1, List.append_assoc, ← List.map_append, ← hlo]
      have e : b.i + (b.j + 1 - b.i) = b.j + 1 := by omega
      have := List.range'_append_1 b.i (b.j + 1 - b.i) (n - (b.j + 1))
      rw [e] at this
      rw [this]
      congr 3
      omega
    · intro q hq
      rw [hf2 q (fun t h1 h2 => hq t (by omega) h2)]
      exact hf1 q (fun t h1 h2 => hq t (by omega) (by omega))
    · intro hinj c hcm t h1 h2
      rcases List.mem_cons.mp hcm with rfl | hcl
      · rw [hf2 (p t) (fun u h3 h4 hu => by
          have := hinj u t h4 (by omega) hu
          omega)]
        exact hv1 hinj t h1 (by omega)
      · exact hv2 hinj c hcl t h1 h2

theorem evaluateProxR_spec (fl : ℚ → ℚ) {n : Nat} {y lambda : List ℚ} (hy : y.length = n)
    (hl : lambda.length = n) :
    ∃ l, finalStackR fl y lambda n = some l ∧ Tile fl (zOf y lambda) 0 n l ∧ l.length ≤ n ∧
      ∀ (mem : Alloc) (x : List ℚ) (order : Option (List Int)), mem.all = true →
        x.length = n → OrderInRange n order →
        ∃ xs, evaluateProxR fl mem y lambda x n order
            = some ⟨0, xs, (List.range n).map (target order), n - l.length⟩ ∧
          xs.length = n ∧
          (InjBelow n (target order) →
            ∀ b ∈ l, ∀ t, b.i ≤ t → t ≤ b.j → xs[target order t]? = some (max b.w 0)) := by
  obtain ⟨k, a, bs, e, hb, _, hrep, hstk, hcnt⟩ := passStateR_spec fl hy hl n (le_refl _)
  have hfin : finalStackR fl y lambda n = some bs.reverse := by
    have := Rep.readStack bs hrep
    rw [hb] at this
    simp [finalStackR, stackAfterR, e, this]
  have htile := StkR.toTile bs n hstk
  have hrepAt := Rep.toRepAt bs hrep
  refine ⟨bs.reverse, hfin, htile, by simp; omega, ?_⟩
  intro mem x order hm hx ho
  obtain ⟨o1, e1, hx1, hw1, _, hv1⟩ :=
    writeBlocks_tile (validIndex_target ho) fl (zOf y lambda) a bs.reverse 0 0 ⟨x, []⟩ hrepAt htile hx
  refine ⟨o1.x, ?_, hx1, hv1⟩
  rw [List.length_reverse, hb] at e1
  have hw : o1.writes = (List.range n).map (target order) := by
    rw [hw1, List.range_eq_range']; simp
  have hmg : a.merges = n - bs.reverse.length := by simp; omega
  cases order with
  | none => simp [evaluateProxR, hm, e, e1, hw, hmg]
  | some P => simp [evaluateProxR, hm, e, e1, hw, hmg]

/-! ## Accumulated sums -/

theorem Accum.range_le {fl : ℚ → ℚ} {z : Nat → ℚ} {a b : Nat} {s : ℚ} (h : Accum fl z a b s) :
    a ≤ b := by
  induction h with
  | single i => exact le_refl _
  | merge _ _ ih1 ih2 => omega

/-- Without rounding an accumulated sum is the sum over the range. -/
theorem Accum.exact {z : Nat → ℚ} {a b : Nat} {s : ℚ} (h : Accum id z a b s) :
    s = ∑ t in Finset.Icc a b, z t := by
  induction h with
  | single i => simp
  | @merge a m b s1 s2 h1 h2 ih1 ih2 =>
    have hab := h1.range_le
    have hmb := h2.range_le
    rw [ih1, ih2, id, ← Nat.Ico_succ_right, ← Nat.Ico_succ_right, ← Nat.Ico_succ_right]
    exact Finset.sum_Ico_consecutive z (by omega) (by omega)

/-! ## Strictly decreasing input: no merge, no rounding -/

theorem singlesTop_length (v : Nat → ℚ) : ∀ m, (singlesTop v m).length = m
  | 0 => rfl
  | m + 1 => by simp [singlesTop, singlesTop_length v m]

theorem mem_singlesTop (v : Nat → ℚ) : ∀ m b, b ∈ singlesTop v m →
    ∃ t, t < m ∧ b = ⟨t, t, v t, v t⟩
  | 0, b, hb => by simp [singlesTop] at hb
  | m + 1, b, hb => by
    simp only [singlesTop, List.mem_cons] at hb
    rcases hb with rfl | hb
    · exact ⟨m, Nat.lt_succ_self m, rfl⟩
    · obtain ⟨t, ht, e⟩ := mem_singlesTop v m b hb
      exact ⟨t, by omega, e⟩

theorem Stk_singlesTop (v : Nat → ℚ) : ∀ m, (∀ t, t + 1 < m → v (t + 1) < v t) →
    Stk v m (singlesTop v m)
  | 0, _ => rfl
  | m + 1, h => by
    refine ⟨rfl, Valid_single v m, Stk_singlesTop v m (fun t ht => h t (by omega)), ?_⟩
    intro p hp
    cases m with
    | zero => simp [singlesTop] at hp
    | succ m =>
      simp only [singlesTop, List.head?_cons, Option.mem_def, Option.some.injEq] at hp
      subst hp
      exact h m (by omega)

theorem sorted_gt_getD {y : List ℚ} (h : y.Sorted (· > ·)) (i : Nat) (hi : i + 1 < y.length) :
    y.getD (i + 1) 0 < y.getD i 0 := by
  have h1 : i < y.length := by omega
  rw [List.getD_eq_getElem _ _ hi, List.getD_eq_getElem _ _ h1]
  exact List.pairwise_iff_getElem.mp h i (i + 1) h1 hi (Nat.lt_succ_self i)

theorem passStateR_strict (fl : ℚ → ℚ) {n : Nat} {y lambda : List ℚ} (hy : y.length = n)
    (hl : lambda.length = n) (hfl : ∀ t, t < n → fl (zOf y lambda t) = y.getD t 0)
    (hdec : ∀ t, t + 1 < n → y.getD (t + 1) 0 < y.getD t 0) :
    ∀ m, m ≤ n → ∃ a, passStateR fl y lambda n m = some (m, a) ∧ WorkLen n a ∧
      Rep a (singlesTop (fun t => y.getD t 0) m) ∧ a.merges = 0
  | 0, _ => ⟨Work.fresh n, rfl, by simp [WorkLen, Work.fresh, malloc], trivial, rfl⟩
  | m + 1, hm => by
    obtain ⟨a, e, hwl, hrep, hmg⟩ := passStateR_strict fl hy hl hfl hdec m (by omega)
    obtain ⟨a1, e1, hwl1, hc, hag, hm1⟩ :=
      @pushBlockR_spec fl n y lambda a m m hwl (by omega) (by omega) (by omega)
    rw [hfl m (by omega)] at hc
    have hrep1 : Rep a1 (singlesTop (fun t => y.getD t 0) (m + 1)) :=
      ⟨by rw [singlesTop_length]; exact hc,
       Rep_frame hag _ (by rw [singlesTop_length]) hrep⟩
    have e2 : mergeLoopR fl m m a1 = some (m, a1) := by
      cases m with
      | zero => rfl
      | succ m' =>
        have hcp : Cell a1 m' ⟨m', m', y.getD m' 0, y.getD m' 0⟩ := by
          have := hrep1.2.1
          rw [singlesTop_length] at this
          exact this
        have hlt := hdec m' (by omega)
        rw [mergeLoopR]
        simp only [hcp.2.2.2, hc.2.2.2, Option.bind_eq_bind, Option.some_bind,
          if_neg (not_le.mpr hlt)]
    refine ⟨a1, ?_, hwl1, hrep1, by omega⟩
    simp [passStateR, e, positionR, e1, e2]

theorem evaluateProxR_strict (fl : ℚ → ℚ) {n : Nat} {y lambda x : List ℚ} (hy : y.length = n)
    (hl : lambda.length = n) (hx : x.length = n) (hfix : ∀ q ∈ y, fl q = q)
    (hys : y.Sorted (· > ·)) (hz : ∀ q ∈ lambda, q = 0) :
    evaluateProxR fl Alloc.ok y lambda x n none
      = some ⟨0, y.map (fun a => max a 0), List.range n, 0⟩ := by
  have hzy : ∀ t, zOf y lambda t = y.getD t 0 := by
    intro t
    rw [zOf, getD_of_all_zero hz t, sub_zero]
  have hfl : ∀ t, t < n → fl (zOf y lambda t) = y.getD t 0 := by
    intro t ht
    have ht' : t < y.length := by omega
    rw [hzy, List.getD_eq_getElem _ _ ht']
    exact hfix _ (List.getElem_mem ht')
  have hdec : ∀ t, t + 1 < n → y.getD (t + 1) 0 < y.getD t 0 :=
    fun t ht => sorted_gt_getD hys t (by omega)
  obtain ⟨a, e, _, hrep, hmg⟩ := passStateR_strict fl hy hl hfl hdec n (le_refl _)
  have hstk := Stk_singlesTop (fun t => y.getD t 0) n hdec
  have hcov := Stk.toCover _ n hstk
  obtain ⟨o1, e1, hx1, hw1, _, hv1⟩ :=
    writeBlocks_spec (validIndex_direct n) (fun t => y.getD t 0) a
      (singlesTop (fun t => y.getD t 0) n).reverse 0 0 ⟨x, []⟩ (Rep.toRepAt _ hrep) hcov hx
  rw [List.length_reverse, singlesTop_length] at e1
  have hw : o1.writes = List.range n := by
    rw [hw1, List.range_eq_range']
    have : target none = id := rfl
    simp [this]
  have hxs : o1.x = y.map (fun a => max a 0) := by
    apply List.ext_getElem (by simp [hx1, hy])
    intro t h1 h2
    have ht : t < n := by omega
    obtain ⟨b, hbl, hb1, hb2⟩ := Cover.mem _ 0 n hcov t (Nat.zero_le _) ht
    obtain ⟨u, _, hbu⟩ := mem_singlesTop _ n b (List.mem_reverse.mp hbl)
    have hut : u = t := by
      subst hbu
      simp only at hb1 hb2
      omega
    have hval := hv1 (fun _ _ _ _ h => h) b hbl t hb1 hb2
    have htt : target none t = t := rfl
    rw [htt, List.getElem?_eq_getElem h1] at hval
    have hval2 : o1.x[t] = max b.w 0 := Option.some.inj hval
    rw [hval2, hbu, hut, List.getElem_map]
    simp only
    rw [List.getD_eq_getElem _ _ (show t < y.length by omega)]
  simp [evaluateProxR, Alloc.all_ok, e, e1, hw, hxs, hmg]

/-! # The claims -/

/-- C1. `evaluateProx` computes the prox of the sorted-L1 penalty: for
every `n ≥ 1`, every non-increasing `y` of length `n` with all entries `≥ 0`
and every non-increasing `lambda` of length `n` with all entries `≥ 0` (exact
arithmetic, no permutation), the output `x` satisfies, for every vector `v` of
length `n`,
`1/2 sum_i (x_i - y_i)^2 + sum_i lambda_i |x|_(i)
   ≤ 1/2 sum_i (v_i - y_i)^2 + sum_i lambda_i |v|_(i)`. -/
theorem evaluateProx_is_prox (n : Nat) (_hn : 1 ≤ n) (y lambda x : List ℚ) (hy : y.length = n)
    (hl : lambda.length = n) (hx : x.length = n) (hys : y.Sorted (· ≥ ·))
    (hyn : ∀ q ∈ y, 0 ≤ q) (_hls : lambda.Sorted (· ≥ ·)) (_hln : ∀ q ∈ lambda, 0 ≤ q) :
    ∃ out, evaluateProx Alloc.ok y lambda x n none = some out ∧ out.result = 0 ∧
      out.x.length = n ∧
      ∀ v : List ℚ, v.length = n → proxObjective n y lambda out.x ≤ proxObjective n y lambda v := by
  obtain ⟨l, _, hcov, _, h⟩ := evaluateProx_direct hy hl
  obtain ⟨xs, e, hxs, hbv, _⟩ := h Alloc.ok x Alloc.all_ok hx
  exact ⟨_, e, rfl, hxs, fun v hv => objective_min hy hxs hcov hbv hys hyn v hv⟩

/-- C1 at `y = [3, 1, 1]`, `lambda = [2, 1, 0]`, where its hypotheses hold. -/
theorem evaluateProx_is_prox_witness :
    (1 ≤ 3 ∧ ([3, 1, 1] : List ℚ).length = 3 ∧ ([2, 1, 0] : List ℚ).length = 3 ∧
      ([9, 9, 9] : List ℚ).length = 3 ∧ ([3, 1, 1] : List ℚ).Sorted (· ≥ ·) ∧
      (∀ q ∈ ([3, 1, 1] : List ℚ), 0 ≤ q) ∧ ([2, 1, 0] : List ℚ).Sorted (· ≥ ·) ∧
      (∀ q ∈ ([2, 1, 0] : List ℚ), 0 ≤ q)) ∧
    ∃ out, evaluateProx Alloc.ok [3, 1, 1] [2, 1, 0] [9, 9, 9] 3 none = some out ∧
      out.result = 0 ∧ out.x.length = 3 ∧
      ∀ v : List ℚ, v.length = 3 →
        proxObjective 3 [3, 1, 1] [2, 1, 0] out.x ≤ proxObjective 3 [3, 1, 1] [2, 1, 0] v :=
  ⟨⟨by decide, rfl, rfl, rfl, by simp, by simp, by simp, by simp⟩,
   evaluateProx_is_prox 3 (by decide) [3, 1, 1] [2, 1, 0] [9, 9, 9] rfl rfl rfl (by simp)
     (by simp) (by simp) (by simp)⟩

/-- C2. Non-negativity: for every `n ≥ 1`, every input `y` of length `n`
(sorted or not) and every `lambda` of length `n` with non-negative entries,
the call of `evaluateProx` without a permutation and with successful
allocations returns `0` and leaves in `x` only entries that are `≥ 0`. -/
theorem evaluateProx_nonneg (n : Nat) (_hn : 1 ≤ n) (y lambda x : List ℚ) (hy : y.length = n)
    (hl : lambda.length = n) (hx : x.length = n) (_hlam : ∀ q ∈ lambda, 0 ≤ q) :
    ∃ out, evaluateProx Alloc.ok y lambda x n none = some out ∧ out.result = 0 ∧
      out.x.length = n ∧ ∀ v ∈ out.x, 0 ≤ v := by
  obtain ⟨l, _, hcov, _, h⟩ := evaluateProx_direct hy hl
  obtain ⟨xs, e, hxs, hbv, _⟩ := h Alloc.ok x Alloc.all_ok hx
  refine ⟨_, e, rfl, hxs, ?_⟩
  intro v hv
  obtain ⟨t, ht, rfl⟩ := List.mem_iff_getElem.mp hv
  have h0 : 0 ≤ xs.getD t 0 := Cover.nonneg hcov hbv t (Nat.zero_le _) (by simpa [hxs] using ht)
  rwa [List.getD_eq_getElem _ _ ht] at h0

/-- C2 at `y = [3, 1, 1]`, `lambda = [2, 1, 0]`, where its hypotheses hold. -/
theorem evaluateProx_nonneg_witness :
    (1 ≤ 3 ∧ ([3, 1, 1] : List ℚ).length = 3 ∧ ([2, 1, 0] : List ℚ).length = 3 ∧
      ([9, 9, 9] : List ℚ).length = 3 ∧ ∀ q ∈ ([2, 1, 0] : List ℚ), 0 ≤ q) ∧
    ∃ out, evaluateProx Alloc.ok [3, 1, 1] [2, 1, 0] [9, 9, 9] 3 none = some out ∧
      out.result = 0 ∧ out.x.length = 3 ∧ ∀ v ∈ out.x, 0 ≤ v :=
  ⟨⟨by decide, rfl, rfl, rfl, by simp⟩,
   evaluateProx_nonneg 3 (by decide) [3, 1, 1] [2, 1, 0] [9, 9, 9] rfl rfl rfl (by simp)⟩

/-- C3. Monotonicity of the output: for every `n ≥ 1`, every non-increasing
`y` and every non-increasing `lambda` of length `n`, the output of
`evaluateProx` without a permutation is non-increasing, and it takes a single
value on the index range of each block left on the final stack. -/
theorem evaluateProx_monotone (n : Nat) (_hn : 1 ≤ n) (y lambda x : List ℚ) (hy : y.length = n)
    (hl : lambda.length = n) (hx : x.length = n) (_hys : y.Sorted (· ≥ ·))
    (_hls : lambda.Sorted (· ≥ ·)) :
    ∃ l out, finalStack y lambda n = some l ∧
      evaluateProx Alloc.ok y lambda x n none = some out ∧ out.x.length = n ∧
      (∀ i, i + 1 < n → out.x.getD (i + 1) 0 ≤ out.x.getD i 0) ∧
      ∀ b ∈ l, ∃ d, ∀ t, b.i ≤ t → t ≤ b.j → out.x[t]? = some d := by
  obtain ⟨l, hfin, hcov, _, h⟩ := evaluateProx_direct hy hl
  obtain ⟨xs, e, hxs, hbv, hv⟩ := h Alloc.ok x Alloc.all_ok hx
  exact ⟨l, _, hfin, e, hxs, fun i hi => Cover.antitone l 0 n hcov hbv i (Nat.zero_le _) hi,
    fun b hb => ⟨max b.w 0, hv b hb⟩⟩

/-- C3 at `y = [3, 1, 1]`, `lambda = [2, 1, 0]`, where its hypotheses hold. -/
theorem evaluateProx_monotone_witness :
    (1 ≤ 3 ∧ ([3, 1, 1] : List ℚ).length = 3 ∧ ([2, 1, 0] : List ℚ).length = 3 ∧
      ([9, 9, 9] : List ℚ).length = 3 ∧ ([3, 1, 1] : List ℚ).Sorted (· ≥ ·) ∧
      ([2, 1, 0] : List ℚ).Sorted (· ≥ ·)) ∧
    ∃ l out, finalStack [3, 1, 1] [2, 1, 0] 3 = some l ∧
      evaluateProx Alloc.ok [3, 1, 1] [2, 1, 0] [9, 9, 9] 3 none = some out ∧ out.x.length = 3 ∧
      (∀ i, i + 1 < 3 → out.x.getD (i + 1) 0 ≤ out.x.getD i 0) ∧
      ∀ b ∈ l, ∃ d, ∀ t, b.i ≤ t → t ≤ b.j → out.x[t]? = some d :=
  ⟨⟨by decide, rfl, rfl, rfl, by simp, by simp⟩,
   evaluateProx_monotone 3 (by decide) [3, 1, 1] [2, 1, 0] [9, 9, 9] rfl rfl rfl (by simp)
     (by simp)⟩

/-- C4 as stated fails, for two reasons. The clip: on the non-increasing
input `y = [-1]` with the zero weight `lambda = [0]` the output is `[0]`, not
`y`. Rounding: on the non-negative, non-increasing input `y = [d, d, d]`, `d`
the binary64 number nearest `1/10`, with zero weights, the three tied entries
are pooled and the mean computed in binary64, `((d + d) + d) / 3` rounded
after each operation, is one unit in the last place above `d`. -/
theorem zero_weights_counterexample :
    ((1 ≤ 1 ∧ ([-1] : List ℚ).length = 1 ∧ ([0] : List ℚ).length = 1 ∧
      ([-1] : List ℚ).Sorted (· ≥ ·) ∧ ∀ q ∈ ([0] : List ℚ), q = 0) ∧
    evaluateProx Alloc.ok [-1] [0] [-1] 1 none = some ⟨0, [0], [0], 0⟩ ∧
    ([0] : List ℚ)[0]? ≠ ([-1] : List ℚ)[0]?) ∧
    ((1 ≤ 3 ∧
      ([3602879701896397 / 36028797018963968, 3602879701896397 / 36028797018963968,
        3602879701896397 / 36028797018963968] : List ℚ).Sorted (· ≥ ·) ∧
      (∀ q ∈ ([0, 0, 0] : List ℚ), q = 0) ∧
      fl64 (1 / 10) = 3602879701896397 / 36028797018963968 ∧
      fl64 (3602879701896397 / 36028797018963968) = 3602879701896397 / 36028797018963968 ∧
      (0 : ℚ) ≤ 3602879701896397 / 36028797018963968) ∧
    evaluateProxR fl64 Alloc.ok
        [3602879701896397 / 36028797018963968, 3602879701896397 / 36028797018963968,
          3602879701896397 / 36028797018963968] [0, 0, 0] [0, 0, 0] 3 none
      = some ⟨0, [7205759403792795 / 72057594037927936, 7205759403792795 / 72057594037927936,
          7205759403792795 / 72057594037927936], [0, 1, 2], 2⟩ ∧
    (7205759403792795 / 72057594037927936 : ℚ) ≠ 3602879701896397 / 36028797018963968) := by
  refine ⟨⟨⟨le_refl _, rfl, rfl, by simp, by simp⟩, by with_unfolding_all decide, ?_⟩,
    ⟨by decide, by simp, by simp, by decide!, by decide!, by norm_num⟩, by decide!, by norm_num⟩
  norm_num

/-- C4, amended. Zero weights return the clipped input: for every `n ≥ 1`
and every `y` of length `n` sorted in non-increasing order, if every entry
of `lambda` is `0` then `evaluateProx` (no permutation) returns `x` with
`x[i] = max(y[i], 0)` for every `i`, and so `x = y` when no entry of `y` is
negative, (1) in exact arithmetic, and (2) under every rounding `fl` of the
three arithmetic operations that leaves the entries of `y` as they are
(binary64 inputs under binary64 rounding), provided `y` is strictly
decreasing: then no two blocks are pooled and no operation rounds. -/
theorem evaluateProx_zero_weights (n : Nat) (_hn : 1 ≤ n) (y lambda x : List ℚ)
    (hy : y.length = n) (hl : lambda.length = n) (hx : x.length = n)
    (hys : y.Sorted (· ≥ ·)) (hz : ∀ q ∈ lambda, q = 0) :
    (∃ out, evaluateProx Alloc.ok y lambda x n none = some out ∧ out.result = 0 ∧
      out.x = y.map (fun a => max a 0) ∧ ((∀ a ∈ y, 0 ≤ a) → out.x = y)) ∧
    ∀ fl : ℚ → ℚ, (∀ q ∈ y, fl q = q) → y.Sorted (· > ·) →
      ∃ out, evaluateProxR fl Alloc.ok y lambda x n none = some out ∧ out.result = 0 ∧
        out.x = y.map (fun a => max a 0) ∧ ((∀ a ∈ y, 0 ≤ a) → out.x = y) := by
  have hid : ∀ (xs : List ℚ), xs = y.map (fun a => max a 0) → (∀ a ∈ y, 0 ≤ a) → xs = y := by
    intro xs hmap hpos
    rw [hmap]
    conv_rhs => rw [← List.map_id y]
    apply List.map_congr_left
    intro a ha
    simp [max_eq_left (hpos a ha)]
  refine ⟨?_, ?_⟩
  · obtain ⟨l, _, hcov, _, h⟩ := evaluateProx_direct hy hl
    obtain ⟨xs, e, hxs, hbv, _⟩ := h Alloc.ok x Alloc.all_ok hx
    have hzy : ∀ t, zOf y lambda t = y.getD t 0 := by
      intro t
      rw [zOf, getD_of_all_zero hz t, sub_zero]
    have hcone : InCone n (fun t => max (zOf y lambda t) 0) := by
      refine ⟨fun i hi => ?_, fun i _ => le_max_right _ _⟩
      simp only [hzy]
      exact max_le_max (sorted_ge_getD hys i (by omega)) (le_refl _)
    have hfix := Cover.clip_fixed hcov hbv hcone
    have hmap : xs = y.map (fun a => max a 0) := by
      apply List.ext_getElem (by simp [hxs, hy])
      intro t h1 h2
      have ht : t < n := by omega
      have := hfix t ht
      simp only [hzy, List.getD_eq_getElem _ _ h1, List.getD_eq_getElem _ _ (show t < y.length by omega)]
        at this
      simpa using this
    exact ⟨_, e, rfl, hmap, hid xs hmap⟩
  · intro fl hfix hstrict
    exact ⟨_, evaluateProxR_strict fl hy hl hx hfix hstrict hz, rfl, rfl, hid _ rfl⟩

/-- C4, amended, at `y = [3, 1/2, -1]` with zero weights, where its hypotheses
hold; the second part applies there to the binary64 rounding `fl64`. -/
theorem evaluateProx_zero_weights_witness :
    (1 ≤ 3 ∧ ([3, 1 / 2, -1] : List ℚ).length = 3 ∧ ([0, 0, 0] : List ℚ).length = 3 ∧
      ([9, 9, 9] : List ℚ).length = 3 ∧ ([3, 1 / 2, -1] : List ℚ).Sorted (· ≥ ·) ∧
      ∀ q ∈ ([0, 0, 0] : List ℚ), q = 0) ∧
    ((∃ out, evaluateProx Alloc.ok [3, 1 / 2, -1] [0, 0, 0] [9, 9, 9] 3 none = some out ∧
      out.result = 0 ∧ out.x = ([3, 1 / 2, -1] : List ℚ).map (fun a => max a 0) ∧
      ((∀ a ∈ ([3, 1 / 2, -1] : List ℚ), 0 ≤ a) → out.x = [3, 1 / 2, -1])) ∧
    ∀ fl : ℚ → ℚ, (∀ q ∈ ([3, 1 / 2, -1] : List ℚ), fl q = q) →
      ([3, 1 / 2, -1] : List ℚ).Sorted (· > ·) →
      ∃ out, evaluateProxR fl Alloc.ok [3, 1 / 2, -1] [0, 0, 0] [9, 9, 9] 3 none = some out ∧
        out.result = 0 ∧ out.x = ([3, 1 / 2, -1] : List ℚ).map (fun a => max a 0) ∧
        ((∀ a ∈ ([3, 1 / 2, -1] : List ℚ), 0 ≤ a) → out.x = [3, 1 / 2, -1])) ∧
    ((∀ q ∈ ([3, 1 / 2, -1] : List ℚ), fl64 q = q) ∧
      ([3, 1 / 2, -1] : List ℚ).Sorted (· > ·)) :=
  ⟨⟨by decide, rfl, rfl, rfl, by norm_num, by simp⟩,
   evaluateProx_zero_weights 3 (by decide) [3, 1 / 2, -1] [0, 0, 0] [9, 9, 9] rfl rfl rfl
     (by norm_num) (by simp),
   by
     intro q hq
     simp only [List.mem_cons, List.mem_singleton, List.not_mem_nil, or_false] at hq
     rcases hq with rfl | rfl | rfl <;> decide!,
   by norm_num⟩

/-- C5. Permutation correctness: for every `n ≥ 1`, every `y` and `lambda`
of length `n`, and every `P` that is a bijection on `[0, n)`, the output `xP`
of `evaluateProx` called with `order = P` and the output `x0` of
`evaluateProx` called on the same `y` and `lambda` with `order = NULL`
satisfy `xP[P[i]] = x0[i]` for every `i` in `[0, n)`. -/
theorem evaluateProx_permutation (n : Nat) (_hn : 1 ≤ n) (y lambda x x' : List ℚ) (P : List Int)
    (hy : y.length = n) (hl : lambda.length = n) (hx : x.length = n) (hx' : x'.length = n)
    (hlen : P.length = n) (hrange : ∀ q ∈ P, 0 ≤ q ∧ q < (n : Int)) (hnodup : P.Nodup) :
    ∃ outP out0, evaluateProx Alloc.ok y lambda x n (some P) = some outP ∧
      evaluateProx Alloc.ok y lambda x' n none = some out0 ∧
      outP.x.length = n ∧ out0.x.length = n ∧
      ∀ i, i < n → outP.x[(P.getD i 0).toNat]? = out0.x[i]? := by
  have hb : OrderBijective n (some P) := ⟨hlen, hrange, hnodup⟩
  obtain ⟨l, _, hcov, _, h⟩ := evaluateProx_spec hy hl
  obtain ⟨xs, e, hxs, hv⟩ := h Alloc.ok x (some P) Alloc.all_ok hx hb.inRange
  obtain ⟨xs0, e0, hxs0, hv0⟩ := h Alloc.ok x' none Alloc.all_ok hx' trivial
  refine ⟨_, _, e, e0, hxs, hxs0, ?_⟩
  intro i hi
  obtain ⟨b, hbl, h1, h2⟩ := Cover.mem l 0 n hcov i (Nat.zero_le _) hi
  have e1 := hv hb.inj b hbl i h1 h2
  have e2 := hv0 (fun _ _ _ _ h => h) b hbl i h1 h2
  exact e1.trans e2.symm

/-- C5 at `y = [3, 1, 1]`, `lambda = [2, 1, 0]`, `P = [2, 0, 1]`, where its hypotheses hold. -/
theorem evaluateProx_permutation_witness :
    (1 ≤ 3 ∧ ([3, 1, 1] : List ℚ).length = 3 ∧ ([2, 1, 0] : List ℚ).length = 3 ∧
      ([9, 9, 9] : List ℚ).length = 3 ∧ ([7, 7, 7] : List ℚ).length = 3 ∧
      ([2, 0, 1] : List Int).length = 3 ∧ (∀ q ∈ ([2, 0, 1] : List Int), 0 ≤ q ∧ q < ((3 : Nat) : Int)) ∧
      ([2, 0, 1] : List Int).Nodup) ∧
    ∃ outP out0, evaluateProx Alloc.ok [3, 1, 1] [2, 1, 0] [9, 9, 9] 3 (some [2, 0, 1]) = some outP ∧
      evaluateProx Alloc.ok [3, 1, 1] [2, 1, 0] [7, 7, 7] 3 none = some out0 ∧
      outP.x.length = 3 ∧ out0.x.length = 3 ∧
      ∀ i, i < 3 → outP.x[(([2, 0, 1] : List Int).getD i 0).toNat]? = out0.x[i]? :=
  ⟨⟨by decide, rfl, rfl, rfl, rfl, rfl, by decide, by decide⟩,
   evaluateProx_permutation 3 (by decide) [3, 1, 1] [2, 1, 0] [9, 9, 9] [7, 7, 7] [2, 0, 1]
     rfl rfl rfl rfl rfl (by decide) (by decide)⟩

/-- C6 as stated fails in the arithmetic of the code, binary64. On
`y = [2, 1, 2^53]`, `lambda = [0, 0, 0]` (every entry a binary64 number) the
pass pools `1` with `2^53`, where `1 + 2^53` rounds to `2^53`, then pools `2`
with that, and ends with the one block `(0, 2, s, w)`,
`s = 9007199254740994`, `w = 6004799503160663 / 2`; the sum of
`y[i] - lambda[i]` over `0..2` is `9007199254740995`, and recomputed from
scratch in binary64, left to right, it is `9007199254740996` with mean
`3002399751580332`; the output value `w` times `3` is neither. On
`y = [0.9, 0.2, 3.3]`, `lambda = [0.2, 0, 0.2]` (the nearest binary64 numbers)
the one final block holds `s = 4`, and the sum recomputed from scratch in
binary64 is `4 - 2^(-51)`. -/
theorem block_sum_counterexample :
    ((1 ≤ 3 ∧ ([2, 1, 9007199254740992] : List ℚ).length = 3 ∧
        ([0, 0, 0] : List ℚ).length = 3 ∧
        (∀ q ∈ ([2, 1, 9007199254740992] : List ℚ), fl64 q = q) ∧ fl64 0 = 0) ∧
      finalStackR fl64 [2, 1, 9007199254740992] [0, 0, 0] 3
        = some [⟨0, 2, 9007199254740994, 6004799503160663 / 2⟩] ∧
      evaluateProxR fl64 Alloc.ok [2, 1, 9007199254740992] [0, 0, 0] [0, 0, 0] 3 none
        = some ⟨0, [6004799503160663 / 2, 6004799503160663 / 2, 6004799503160663 / 2],
            [0, 1, 2], 2⟩ ∧
      (∑ t in Finset.Icc 0 2,
          (([2, 1, 9007199254740992] : List ℚ).getD t 0 - ([0, 0, 0] : List ℚ).getD t 0))
        = 9007199254740995 ∧
      fl64 (fl64 (fl64 (2 - 0) + fl64 (1 - 0)) + fl64 (9007199254740992 - 0))
        = 9007199254740996 ∧
      fl64 (9007199254740996 / 3) = 3002399751580332 ∧
      (9007199254740994 : ℚ) ≠ 9007199254740995 ∧
      (9007199254740994 : ℚ) ≠ 9007199254740996 ∧
      (6004799503160663 / 2 : ℚ) ≠ 3002399751580332 ∧
      (6004799503160663 / 2 : ℚ) ≠ 9007199254740995 / 3 ∧
      (0 : ℚ) ≤ 6004799503160663 / 2 ∧
      max (6004799503160663 / 2 : ℚ) 0 * 3 ≠ 9007199254740995 ∧
      fl64 (max (6004799503160663 / 2 : ℚ) 0 * 3) ≠ 9007199254740996) ∧
    (finalStackR fl64 [fl64 (9 / 10), fl64 (1 / 5), fl64 (33 / 10)]
          [fl64 (1 / 5), 0, fl64 (1 / 5)] 3
        = some [⟨0, 2, 4, 6004799503160661 / 4503599627370496⟩] ∧
      fl64 (fl64 (fl64 (fl64 (9 / 10) - fl64 (1 / 5)) + fl64 (fl64 (1 / 5) - 0))
          + fl64 (fl64 (33 / 10) - fl64 (1 / 5)))
        = 4 - 1 / 2251799813685248 ∧
      (4 : ℚ) ≠ 4 - 1 / 2251799813685248) := by
  refine ⟨⟨⟨by decide, rfl, rfl, ?_, by decide!⟩, by decide!, by decide!, ?_, by decide!,
    by decide!, by norm_num, by norm_num, by norm_num, by norm_num, by norm_num, ?_, ?_⟩,
    by decide!, by decide!, by norm_num⟩
  · intro q hq
    simp only [List.mem_cons, List.mem_singleton, List.not_mem_nil, or_false] at hq
    rcases hq with rfl | rfl | rfl <;> decide!
  · decide!
  · decide!
  · decide!

/-- C6, amended. For every `n ≥ 1` and every `y`, `lambda` of length `n`:
(1) under every rounding `fl` of the three arithmetic operations (binary64
rounding among them), each block `(a, b, s, w)` on the final stack has
`a ≤ b < n`, its `s` is the sum of `y[i] - lambda[i]` over `a..b` as the pass
accumulates it (`Accum`: each difference rounded, adjacent partial sums added
and rounded, in the order of the merges), `w = s` for a block of one position
and `w` is the rounded quotient of `s` by `b - a + 1` for a merged block, and
every output position in `[a, b]` holds `max(w, 0)`; (2) in exact arithmetic
moreover `s = sum_{i=a..b} (y[i] - lambda[i])` and `w = s / (b - a + 1)`, and
hence for every block with `w ≥ 0` the output value times `b - a + 1` is that
sum. -/
theorem evaluateProx_block_sum (n : Nat) (_hn : 1 ≤ n) (y lambda x : List ℚ) (hy : y.length = n)
    (hl : lambda.length = n) (hx : x.length = n) :
    (∀ fl : ℚ → ℚ, ∃ l out, finalStackR fl y lambda n = some l ∧
      evaluateProxR fl Alloc.ok y lambda x n none = some out ∧
      ∀ b ∈ l, b.i ≤ b.j ∧ b.j < n ∧
        Accum fl (fun t => y.getD t 0 - lambda.getD t 0) b.i b.j b.s ∧
        (b.i = b.j → b.s = fl (y.getD b.i 0 - lambda.getD b.i 0) ∧ b.w = b.s) ∧
        (b.i < b.j → b.w = fl (b.s / ((b.j - b.i + 1 : Nat) : ℚ))) ∧
        (∀ t, b.i ≤ t → t ≤ b.j → out.x[t]? = some (max b.w 0))) ∧
    (∃ l out, finalStack y lambda n = some l ∧
      evaluateProx Alloc.ok y lambda x n none = some out ∧
      ∀ b ∈ l, b.i ≤ b.j ∧ b.j < n ∧
        b.s = ∑ t in Finset.Icc b.i b.j, (y.getD t 0 - lambda.getD t 0) ∧
        b.w = b.s / ((b.j - b.i + 1 : Nat) : ℚ) ∧
        (∀ t, b.i ≤ t → t ≤ b.j → out.x[t]? = some (max b.w 0)) ∧
        (0 ≤ b.w → max b.w 0 * ((b.j - b.i + 1 : Nat) : ℚ)
          = ∑ t in Finset.Icc b.i b.j, (y.getD t 0 - lambda.getD t 0))) := by
  refine ⟨?_, ?_⟩
  · intro fl
    obtain ⟨l, hfin, htile, _, h⟩ := evaluateProxR_spec fl hy hl
    obtain ⟨xs, e, _, hv⟩ := h Alloc.ok x none Alloc.all_ok hx trivial
    refine ⟨l, _, hfin, e, ?_⟩
    intro b hb
    obtain ⟨⟨hij, hacc, hone, hmerged⟩, _, hjn⟩ := Tile.shape l 0 n htile b hb
    refine ⟨hij, hjn, hacc, fun h => ⟨?_, hone h⟩, hmerged,
      hv (fun _ _ _ _ h => h) b hb⟩
    have hacc2 := hacc
    rw [← h] at hacc2
    generalize b.s = s at hacc2
    generalize hc : b.i = c at hacc2
    cases hacc2 with
    | single i => rfl
    | merge h1 h2 =>
      have := h1.range_le
      have := h2.range_le
      omega
  · obtain ⟨l, hfin, hcov, _, h⟩ := evaluateProx_direct hy hl
    obtain ⟨xs, e, _, _, hv⟩ := h Alloc.ok x Alloc.all_ok hx
    refine ⟨l, _, hfin, e, ?_⟩
    intro b hb
    obtain ⟨hval, _, hjn⟩ := Cover.valid l 0 n hcov b hb
    have hsum : b.s = ∑ t in Finset.Icc b.i b.j, (y.getD t 0 - lambda.getD t 0) := by
      have h1 := hval.2.1
      have h2 := Finset.sum_Ico_eq_sub (zOf y lambda) (show b.i ≤ b.j + 1 by have := hval.1; omega)
      rw [Nat.Ico_succ_right] at h2
      simp only [pre] at h1
      rw [h1, ← h2]
      rfl
    refine ⟨hval.1, hjn, hsum, hval.2.2.1, hv b hb, ?_⟩
    intro hw
    rw [max_eq_left hw, ← hsum, hval.len_cast]
    exact hval.mean_mul

/-- C6, amended, at `y = [3, 1, 1]`, `lambda = [2, 1, 0]`, where its
hypotheses hold. -/
theorem evaluateProx_block_sum_witness :
    (1 ≤ 3 ∧ ([3, 1, 1] : List ℚ).length = 3 ∧ ([2, 1, 0] : List ℚ).length = 3 ∧
      ([9, 9, 9] : List ℚ).length = 3) ∧
    (∀ fl : ℚ → ℚ, ∃ l out, finalStackR fl [3, 1, 1] [2, 1, 0] 3 = some l ∧
      evaluateProxR fl Alloc.ok [3, 1, 1] [2, 1, 0] [9, 9, 9] 3 none = some out ∧
      ∀ b ∈ l, b.i ≤ b.j ∧ b.j < 3 ∧
        Accum fl (fun t => ([3, 1, 1] : List ℚ).getD t 0 - ([2, 1, 0] : List ℚ).getD t 0)
          b.i b.j b.s ∧
        (b.i = b.j → b.s = fl (([3, 1, 1] : List ℚ).getD b.i 0 - ([2, 1, 0] : List ℚ).getD b.i 0) ∧
          b.w = b.s) ∧
        (b.i < b.j → b.w = fl (b.s / ((b.j - b.i + 1 : Nat) : ℚ))) ∧
        (∀ t, b.i ≤ t → t ≤ b.j → out.x[t]? = some (max b.w 0))) ∧
    (∃ l out, finalStack [3, 1, 1] [2, 1, 0] 3 = some l ∧
      evaluateProx Alloc.ok [3, 1, 1] [2, 1, 0] [9, 9, 9] 3 none = some out ∧
      ∀ b ∈ l, b.i ≤ b.j ∧ b.j < 3 ∧
        b.s = ∑ t in Finset.Icc b.i b.j, (([3, 1, 1] : List ℚ).getD t 0 - ([2, 1, 0] : List ℚ).getD t 0) ∧
        b.w = b.s / ((b.j - b.i + 1 : Nat) : ℚ) ∧
        (∀ t, b.i ≤ t → t ≤ b.j → out.x[t]? = some (max b.w 0)) ∧
        (0 ≤ b.w → max b.w 0 * ((b.j - b.i + 1 : Nat) : ℚ)
          = ∑ t in Finset.Icc b.i b.j, (([3, 1, 1] : List ℚ).getD t 0 - ([2, 1, 0] : List ℚ).getD t 0))) :=
  ⟨⟨by decide, rfl, rfl, rfl⟩,
   evaluateProx_block_sum 3 (by decide) [3, 1, 1] [2, 1, 0] [9, 9, 9] rfl rfl rfl⟩

/-- C7. Failure semantics: with the outcome of the four allocations as an
input, `evaluateProx` returns `-1` if and only if at least one of the four
allocations failed, and in that case `x` is left exactly as it was before
the call (nothing is written); when all four allocations succeed it returns
`0`, whatever the contents of `y`, `lambda` and `order`. The first two parts
hold for all arguments; the third needs the arrays to be what the call
accesses: `n` entries each, those of `order` being indices of `x`. -/
theorem evaluateProx_failure (mem : Alloc) (n : Nat) (y lambda x : List ℚ)
    (order : Option (List Int)) :
    ((mem.s = false ∨ mem.w = false ∨ mem.idx_i = false ∨ mem.idx_j = false) →
      evaluateProx mem y lambda x n order = some ⟨-1, x, [], 0⟩) ∧
    (∀ out, evaluateProx mem y lambda x n order = some out →
      (out.result = -1 ↔
        (mem.s = false ∨ mem.w = false ∨ mem.idx_i = false ∨ mem.idx_j = false))) ∧
    ((mem.s = true ∧ mem.w = true ∧ mem.idx_i = true ∧ mem.idx_j = true) →
      y.length = n → lambda.length = n → x.length = n → OrderInRange n order →
      ∃ out, evaluateProx mem y lambda x n order = some out ∧ out.result = 0) := by
  have hiff : mem.all = true ↔
      (mem.s = true ∧ mem.w = true ∧ mem.idx_i = true ∧ mem.idx_j = true) := by
    simp [Alloc.all, and_assoc]
  have hfail : (mem.s = false ∨ mem.w = false ∨ mem.idx_i = false ∨ mem.idx_j = false) ↔
      ¬ mem.all = true := by
    rw [hiff]
    simp only [not_and_or, Bool.not_eq_true]
  refine ⟨?_, ?_, ?_⟩
  · intro hf
    have hm := hfail.mp hf
    simp [evaluateProx, hm]
  · intro out hout
    rw [hfail]
    by_cases hm : mem.all = true
    · simp only [evaluateProx, hm, if_true] at hout
      obtain ⟨ka, _, hout⟩ := Option.bind_eq_some.mp hout
      have : out.result = 0 := by
        cases order with
        | none =>
          obtain ⟨o, _, hout⟩ := Option.bind_eq_some.mp hout
          cases hout
          rfl
        | some P =>
          obtain ⟨o, _, hout⟩ := Option.bind_eq_some.mp hout
          cases hout
          rfl
      simp [hm, this]
    · have : out.result = -1 := by
        simp [evaluateProx, hm] at hout
        rw [← hout]
      simp [hm, this]
  · intro hall hy hl hx ho
    obtain ⟨l, _, _, _, h⟩ := evaluateProx_spec hy hl
    obtain ⟨xs, e, _, _⟩ := h mem x order (hiff.mpr hall) hx ho
    exact ⟨_, e, rfl⟩

/-- C7 at concrete inputs: a call whose second allocation fails, and a call
with an `order` that is in range but not injective. -/
theorem evaluateProx_failure_witness :
    evaluateProx ⟨true, false, true, true⟩ [3, 1, 1] [2, 1, 0] [9, 9, 9] 3 (some [2, 2, 0])
      = some ⟨-1, [9, 9, 9], [], 0⟩ ∧
    ∃ out, evaluateProx Alloc.ok [1, 3, 2] [2, 1, 5] [9, 9, 9] 3 (some [2, 2, 0]) = some out ∧
      out.result = 0 :=
  ⟨(evaluateProx_failure ⟨true, false, true, true⟩ 3 [3, 1, 1] [2, 1, 0] [9, 9, 9]
      (some [2, 2, 0])).1 (Or.inr (Or.inl rfl)),
   (evaluateProx_failure Alloc.ok 3 [1, 3, 2] [2, 1, 5] [9, 9, 9] (some [2, 2, 0])).2.2
      ⟨rfl, rfl, rfl, rfl⟩ rfl rfl rfl (by simp [OrderInRange])⟩

/-- C8. Output fully populated: for every `n ≥ 1`, every `y` and `lambda`
of length `n`, and `order` either absent or a bijection on `[0, n)`, a
successful call of `evaluateProx` writes every one of the `n` positions of
`x` exactly once (the list of written indices is a permutation of
`0, ..., n - 1`), so the resulting `x` does not depend on the contents `x`
had before the call. -/
theorem evaluateProx_populates (n : Nat) (_hn : 1 ≤ n) (y lambda x : List ℚ)
    (order : Option (List Int)) (hy : y.length = n) (hl : lambda.length = n)
    (hx : x.length = n) (ho : OrderBijective n order) :
    ∃ out, evaluateProx Alloc.ok y lambda x n order = some out ∧ out.result = 0 ∧
      out.x.length = n ∧ out.writes.Perm (List.range n) ∧
      ∀ x' : List ℚ, x'.length = n →
        ∃ out', evaluateProx Alloc.ok y lambda x' n order = some out' ∧ out'.x = out.x := by
  obtain ⟨l, _, _, _, h⟩ := evaluateProx_spec hy hl
  obtain ⟨xs, e, hxs, _⟩ := h Alloc.ok x order Alloc.all_ok hx ho.inRange
  refine ⟨_, e, rfl, hxs, writes_perm (target_lt ho.inRange) ho.inj, ?_⟩
  intro x' hx'
  exact ⟨_, (evaluateProx_indep hy hl hx hx' ho).trans e, rfl⟩

/-- C8 at `y = [3, 1, 1]`, `lambda = [2, 1, 0]`, `order = [2, 0, 1]`, where its hypotheses hold. -/
theorem evaluateProx_populates_witness :
    (1 ≤ 3 ∧ ([3, 1, 1] : List ℚ).length = 3 ∧ ([2, 1, 0] : List ℚ).length = 3 ∧
      ([9, 9, 9] : List ℚ).length = 3 ∧ OrderBijective 3 (some [2, 0, 1])) ∧
    ∃ out, evaluateProx Alloc.ok [3, 1, 1] [2, 1, 0] [9, 9, 9] 3 (some [2, 0, 1]) = some out ∧
      out.result = 0 ∧ out.x.length = 3 ∧ out.writes.Perm (List.range 3) ∧
      ∀ x' : List ℚ, x'.length = 3 →
        ∃ out', evaluateProx Alloc.ok [3, 1, 1] [2, 1, 0] x' 3 (some [2, 0, 1]) = some out' ∧
          out'.x = out.x :=
  ⟨⟨by decide, rfl, rfl, rfl, by simp [OrderBijective]⟩,
   evaluateProx_populates 3 (by decide) [3, 1, 1] [2, 1, 0] [9, 9, 9] (some [2, 0, 1])
     rfl rfl rfl (by simp [OrderBijective])⟩

/-- C9. Worked scenario `n = 3`: on `y = [3, 1, 1]` and `lambda = [2, 1, 0]`
with no permutation, the pass ends with exactly two blocks, `[0, 0]` with
mean `1` and `[1, 2]` with sum `1` and mean `1/2`, and the output is
`x = [1, 1/2, 1/2]`, whatever `x` held before (one merge step was taken). -/
theorem evaluateProx_scenario_three (a b c : ℚ) :
    finalStack [3, 1, 1] [2, 1, 0] 3 = some [⟨0, 0, 1, 1⟩, ⟨1, 2, 1, 1 / 2⟩] ∧
    evaluateProx Alloc.ok [3, 1, 1] [2, 1, 0] [a, b, c] 3 none
      = some ⟨0, [1, 1 / 2, 1 / 2], [0, 1, 2], 1⟩ := by
  refine ⟨by with_unfolding_all decide, ?_⟩
  rw [@evaluateProx_indep 3 [3, 1, 1] [2, 1, 0] [0, 0, 0] [a, b, c] none rfl rfl rfl rfl trivial]
  with_unfolding_all decide

/-- C10. Degenerate length 1: for `n = 1` and every `y = [a]`,
`lambda = [b]`, `evaluateProx` returns `x = [max(a - b, 0)]`; in particular
`y = [5]`, `lambda = [3]` gives `x = [2]`. The same holds with the only
permutation of length one, `order = [0]`. -/
theorem evaluateProx_length_one (a b c : ℚ) :
    evaluateProx Alloc.ok [a] [b] [c] 1 none = some ⟨0, [max (a - b) 0], [0], 0⟩ ∧
    evaluateProx Alloc.ok [a] [b] [c] 1 (some [0]) = some ⟨0, [max (a - b) 0], [0], 0⟩ ∧
    evaluateProx Alloc.ok [5] [3] [c] 1 none = some ⟨0, [2], [0], 0⟩ := by
  have key : ∀ a b : ℚ,
      evaluateProx Alloc.ok [a] [b] [c] 1 none = some ⟨0, [max (a - b) 0], [0], 0⟩ := by
    intro a b
    simp [evaluateProx, Alloc.all, Alloc.ok, passState, position, pushBlock, mergeLoop,
      writeBlocks, fillBlock, Out.store, directIndex, rd, wr, Work.fresh, malloc, clip_eq_max]
  refine ⟨key a b, ?_, ?_⟩
  · simp [evaluateProx, Alloc.all, Alloc.ok, passState, position, pushBlock, mergeLoop,
      writeBlocks, fillBlock, Out.store, orderIndex, rd, wr, Work.fresh, malloc, clip_eq_max]
  · rw [key 5 3]
    norm_num

/-- C11. All non-positive after subtraction: for every `n ≥ 1` and every
`y`, `lambda` of length `n` such that `y[i] - lambda[i] ≤ 0` for every `i`,
`evaluateProx` (with `order` absent or a bijection on `[0, n)`) returns the
all-zero vector; in particular `y = [0, 0]`, `lambda = [5, 5]` ends with a
single block of mean `-5` and gives `x = [0, 0]`. -/
theorem evaluateProx_nonpositive (n : Nat) (_hn : 1 ≤ n) (y lambda x : List ℚ)
    (order : Option (List Int)) (hy : y.length = n) (hl : lambda.length = n)
    (hx : x.length = n) (ho : OrderBijective n order)
    (hz : ∀ i, i < n → y.getD i 0 - lambda.getD i 0 ≤ 0) :
    (∃ out, evaluateProx Alloc.ok y lambda x n order = some out ∧ out.result = 0 ∧
      out.x = List.replicate n 0) ∧
    finalStack [0, 0] [5, 5] 2 = some [⟨0, 1, -10, -5⟩] ∧
    ∀ a b : ℚ, evaluateProx Alloc.ok [0, 0] [5, 5] [a, b] 2 none
      = some ⟨0, [0, 0], [0, 1], 1⟩ := by
  refine ⟨?_, by with_unfolding_all decide, ?_⟩
  · obtain ⟨l, _, hcov, _, h⟩ := evaluateProx_spec hy hl
    obtain ⟨xs, e, hxs, hv⟩ := h Alloc.ok x order Alloc.all_ok hx ho.inRange
    refine ⟨_, e, rfl, ?_⟩
    show xs = List.replicate n 0
    apply List.ext_getElem?
    intro q
    by_cases hq : q < n
    · obtain ⟨t, ht, rfl⟩ := target_surj ho q hq
      obtain ⟨b, hbl, h1, h2⟩ := Cover.mem l 0 n hcov t (Nat.zero_le _) ht
      obtain ⟨hval, _, hjn⟩ := Cover.valid l 0 n hcov b hbl
      have hw : b.w ≤ 0 := hval.mean_nonpos (fun u _ hu => hz u (by omega))
      rw [hv ho.inj b hbl t h1 h2, max_eq_right hw]
      simp [List.getElem?_replicate, target_lt ho.inRange t ht]
    · rw [List.getElem?_eq_none (by omega), List.getElem?_eq_none (by simp; omega)]
  · intro a b
    rw [@evaluateProx_indep 2 [0, 0] [5, 5] [0, 0] [a, b] none rfl rfl rfl rfl trivial]
    with_unfolding_all decide

/-- C11 at `y = [0, 0]`, `lambda = [5, 5]`, where its hypotheses hold. -/
theorem evaluateProx_nonpositive_witness :
    (1 ≤ 2 ∧ ([0, 0] : List ℚ).length = 2 ∧ ([5, 5] : List ℚ).length = 2 ∧
      ([9, 9] : List ℚ).length = 2 ∧ OrderBijective 2 none ∧
      ∀ i, i < 2 → ([0, 0] : List ℚ).getD i 0 - ([5, 5] : List ℚ).getD i 0 ≤ 0) ∧
    ((∃ out, evaluateProx Alloc.ok [0, 0] [5, 5] [9, 9] 2 none = some out ∧ out.result = 0 ∧
      out.x = List.replicate 2 0) ∧
    finalStack [0, 0] [5, 5] 2 = some [⟨0, 1, -10, -5⟩] ∧
    ∀ a b : ℚ, evaluateProx Alloc.ok [0, 0] [5, 5] [a, b] 2 none
      = some ⟨0, [0, 0], [0, 1], 1⟩) :=
  have hz : ∀ i, i < 2 → ([0, 0] : List ℚ).getD i 0 - ([5, 5] : List ℚ).getD i 0 ≤ 0 := by
    intro i hi
    interval_cases i <;> norm_num
  ⟨⟨by decide, rfl, rfl, rfl, trivial, hz⟩,
   evaluateProx_nonpositive 2 (by decide) [0, 0] [5, 5] [9, 9] none rfl rfl rfl trivial hz⟩

/-- C12. Strictly decreasing block means: for every `n ≥ 1` and every `y`,
`lambda` of length `n` (sorted or not), after the merge loop for each
position `i` has finished, and in particular after all `n` positions, the
stack holds `k` blocks with `1 ≤ k ≤ i + 1 ≤ n`, ordered by start index,
whose means satisfy `w[0] > w[1] > ... > w[k-1]`. -/
theorem stack_means_decreasing (n : Nat) (_hn : 1 ≤ n) (y lambda : List ℚ) (hy : y.length = n)
    (hl : lambda.length = n) (i : Nat) (hi : i < n) :
    (∃ k a l, passState y lambda n (i + 1) = some (k, a) ∧
      stackAfter y lambda n (i + 1) = some l ∧ l.length = k ∧
      1 ≤ k ∧ k ≤ i + 1 ∧ i + 1 ≤ n ∧
      l.Pairwise (fun b c => b.i < c.i) ∧ l.Pairwise (fun b c => c.w < b.w)) ∧
    (∃ k a l, passState y lambda n n = some (k, a) ∧ finalStack y lambda n = some l ∧
      l.length = k ∧ 1 ≤ k ∧ k ≤ n ∧
      l.Pairwise (fun b c => b.i < c.i) ∧ l.Pairwise (fun b c => c.w < b.w)) := by
  have key : ∀ m, 0 < m → m ≤ n → ∃ k a l, passState y lambda n m = some (k, a) ∧
      stackAfter y lambda n m = some l ∧ l.length = k ∧ 1 ≤ k ∧ k ≤ m ∧
      l.Pairwise (fun b c => b.i < c.i) ∧ l.Pairwise (fun b c => c.w < b.w) := by
    intro m hm0 hmn
    obtain ⟨k, a, l, e, hst, hlen, _, hcov, hcnt⟩ := stackAfter_spec hy hl m hmn
    have hne := hcov.ne_nil hm0
    have hk : 1 ≤ k := by
      rw [← hlen]
      exact List.length_pos.mpr hne
    refine ⟨k, a, l, e, hst, hlen, hk, by omega, ?_, Cover.means_sorted l 0 m hcov⟩
    refine List.Pairwise.imp_of_mem ?_ (Cover.starts_sorted l 0 m hcov)
    intro b c hb _ hbc
    have := (Cover.valid l 0 m hcov b hb).1.1
    omega
  obtain ⟨k, a, l, h1, h2, h3, h4, h5, h6, h7⟩ := key (i + 1) (Nat.succ_pos i) hi
  exact ⟨⟨k, a, l, h1, h2, h3, h4, h5, hi, h6, h7⟩, key n (by omega) (le_refl _)⟩

/-- C12 at `y = [1, 3, 2]`, `lambda = [2, 1, 5]` (not sorted), position
`i = 2`, where its hypotheses hold. -/
theorem stack_means_decreasing_witness :
    (1 ≤ 3 ∧ ([1, 3, 2] : List ℚ).length = 3 ∧ ([2, 1, 5] : List ℚ).length = 3 ∧ 2 < 3) ∧
    ((∃ k a l, passState [1, 3, 2] [2, 1, 5] 3 (2 + 1) = some (k, a) ∧
      stackAfter [1, 3, 2] [2, 1, 5] 3 (2 + 1) = some l ∧ l.length = k ∧
      1 ≤ k ∧ k ≤ 2 + 1 ∧ 2 + 1 ≤ 3 ∧
      l.Pairwise (fun b c => b.i < c.i) ∧ l.Pairwise (fun b c => c.w < b.w)) ∧
    (∃ k a l, passState [1, 3, 2] [2, 1, 5] 3 3 = some (k, a) ∧
      finalStack [1, 3, 2] [2, 1, 5] 3 = some l ∧
      l.length = k ∧ 1 ≤ k ∧ k ≤ 3 ∧
      l.Pairwise (fun b c => b.i < c.i) ∧ l.Pairwise (fun b c => c.w < b.w))) :=
  ⟨⟨by decide, rfl, rfl, by decide⟩,
   stack_means_decreasing 3 (by decide) [1, 3, 2] [2, 1, 5] rfl rfl 2 (by decide)⟩

/-- C13. Block ranges partition the processed prefix: for every `n ≥ 1`,
every `y` and `lambda` of length `n`, and every position `i < n`, after
position `i` has been processed the blocks `(idx_i[j], idx_j[j])` for `j < k`
satisfy `idx_i[0] = 0`, `idx_i[j] ≤ idx_j[j]`, `idx_i[j+1] = idx_j[j] + 1`
and `idx_j[k-1] = i`, so the ranges are contiguous, pairwise disjoint and
jointly cover exactly `[0, i]`. -/
theorem stack_partitions_prefix (n : Nat) (_hn : 1 ≤ n) (y lambda : List ℚ) (hy : y.length = n)
    (hl : lambda.length = n) (i : Nat) (hi : i < n) :
    ∃ k a l, passState y lambda n (i + 1) = some (k, a) ∧
      stackAfter y lambda n (i + 1) = some l ∧ l.length = k ∧ 1 ≤ k ∧
      (∀ j b, l[j]? = some b → rd a.idx_i j = some b.i ∧ rd a.idx_j j = some b.j) ∧
      (∀ b, l[0]? = some b → b.i = 0) ∧
      (∀ b ∈ l, b.i ≤ b.j) ∧
      (∀ j b c, l[j]? = some b → l[j + 1]? = some c → c.i = b.j + 1) ∧
      (∀ b, l[k - 1]? = some b → b.j = i) ∧
      l.Pairwise (fun b c => b.j < c.i) ∧
      (∀ b ∈ l, b.j ≤ i) ∧
      (∀ t, t ≤ i → ∃ b ∈ l, b.i ≤ t ∧ t ≤ b.j) := by
  obtain ⟨k, a, l, e, hst, hlen, hrep, hcov, _⟩ := stackAfter_spec hy hl (i + 1) hi
  have hne := hcov.ne_nil (Nat.succ_pos i)
  have hk : 1 ≤ k := by
    rw [← hlen]
    exact List.length_pos.mpr hne
  refine ⟨k, a, l, e, hst, hlen, hk, ?_, hcov.head_start, ?_, ?_, ?_,
    Cover.starts_sorted l 0 _ hcov, ?_, ?_⟩
  · intro j b hb
    have := RepAt.cell l 0 hrep j b hb
    rw [Nat.zero_add] at this
    exact ⟨this.1, this.2.1⟩
  · intro b hb
    exact (Cover.valid l 0 _ hcov b hb).1.1
  · intro j b c hb hc
    exact (Cover.adjacent l 0 _ hcov j b c hb hc).1
  · intro b hb
    have hlast : l.getLast? = some b := by
      rw [List.getLast?_eq_getElem?, hlen]
      exact hb
    have := Cover.last_end l 0 _ hcov b hlast
    omega
  · intro b hb
    have := (Cover.valid l 0 _ hcov b hb).2.2
    omega
  · intro t ht
    exact Cover.mem l 0 _ hcov t (Nat.zero_le _) (by omega)

/-- C13 at `y = [1, 3, 2]`, `lambda = [2, 1, 5]`, position `i = 1`, where its
hypotheses hold. -/
theorem stack_partitions_prefix_witness :
    (1 ≤ 3 ∧ ([1, 3, 2] : List ℚ).length = 3 ∧ ([2, 1, 5] : List ℚ).length = 3 ∧ 1 < 3) ∧
    ∃ k a l, passState [1, 3, 2] [2, 1, 5] 3 (1 + 1) = some (k, a) ∧
      stackAfter [1, 3, 2] [2, 1, 5] 3 (1 + 1) = some l ∧ l.length = k ∧ 1 ≤ k ∧
      (∀ j b, l[j]? = some b → rd a.idx_i j = some b.i ∧ rd a.idx_j j = some b.j) ∧
      (∀ b, l[0]? = some b → b.i = 0) ∧
      (∀ b ∈ l, b.i ≤ b.j) ∧
      (∀ j b c, l[j]? = some b → l[j + 1]? = some c → c.i = b.j + 1) ∧
      (∀ b, l[k - 1]? = some b → b.j = 1) ∧
      l.Pairwise (fun b c => b.j < c.i) ∧
      (∀ b ∈ l, b.j ≤ 1) ∧
      (∀ t, t ≤ 1 → ∃ b ∈ l, b.i ≤ t ∧ t ≤ b.j) :=
  ⟨⟨by decide, rfl, rfl, by decide⟩,
   stack_partitions_prefix 3 (by decide) [1, 3, 2] [2, 1, 5] rfl rfl 1 (by decide)⟩

/-- C14. Bounded merging: for every `n ≥ 1` and every `y`, `lambda` of
length `n`, the inner merge loop of `evaluateProx` terminates for every
position (the pass reaches every position `m ≤ n`, having executed `m - k`
merge steps when `k` blocks are on the stack), and the total number of merge
steps executed over the whole pass equals `n - k`, where `k` is the number of
blocks on the final stack; hence it is at most `n - 1`. -/
theorem merges_bounded (n : Nat) (hn : 1 ≤ n) (y lambda x : List ℚ) (hy : y.length = n)
    (hl : lambda.length = n) (hx : x.length = n) :
    (∀ m, m ≤ n → ∃ k a, passState y lambda n m = some (k, a) ∧ a.merges + k = m) ∧
    ∃ k a l out, passState y lambda n n = some (k, a) ∧ finalStack y lambda n = some l ∧
      l.length = k ∧ evaluateProx Alloc.ok y lambda x n none = some out ∧
      out.merges = a.merges ∧ out.merges = n - k ∧ out.merges + k = n ∧
      out.merges ≤ n - 1 := by
  refine ⟨?_, ?_⟩
  · intro m hm
    obtain ⟨k, a, _, e, _, _, _, _, hcnt⟩ := stackAfter_spec hy hl m hm
    exact ⟨k, a, e, hcnt⟩
  · obtain ⟨k, a, l, e, hst, hlen, _, hcov, hcnt⟩ := stackAfter_spec hy hl n (le_refl _)
    obtain ⟨l', hfin, _, _, h⟩ := evaluateProx_spec hy hl
    have hll : l' = l := by
      have : some l' = some l := hfin.symm.trans hst
      exact Option.some.inj this
    subst hll
    obtain ⟨xs, e2, _, _⟩ := h Alloc.ok x none Alloc.all_ok hx trivial
    have hne := hcov.ne_nil (by omega : 0 < n)
    have hk : 1 ≤ k := by
      rw [← hlen]
      exact List.length_pos.mpr hne
    refine ⟨k, a, l', _, e, hst, hlen, e2, ?_, ?_, ?_, ?_⟩
    · show n - l'.length = a.merges
      omega
    · show n - l'.length = n - k
      omega
    · show n - l'.length + k = n
      omega
    · show n - l'.length ≤ n - 1
      omega

/-- C14 at `y = [1, 3, 2]`, `lambda = [2, 1, 5]`, where its hypotheses hold. -/
theorem merges_bounded_witness :
    (1 ≤ 3 ∧ ([1, 3, 2] : List ℚ).length = 3 ∧ ([2, 1, 5] : List ℚ).length = 3 ∧
      ([9, 9, 9] : List ℚ).length = 3) ∧
    ((∀ m, m ≤ 3 → ∃ k a, passState [1, 3, 2] [2, 1, 5] 3 m = some (k, a) ∧ a.merges + k = m) ∧
    ∃ k a l out, passState [1, 3, 2] [2, 1, 5] 3 3 = some (k, a) ∧
      finalStack [1, 3, 2] [2, 1, 5] 3 = some l ∧
      l.length = k ∧ evaluateProx Alloc.ok [1, 3, 2] [2, 1, 5] [9, 9, 9] 3 none = some out ∧
      out.merges = a.merges ∧ out.merges = 3 - k ∧ out.merges + k = 3 ∧
      out.merges ≤ 3 - 1) :=
  ⟨⟨by decide, rfl, rfl, rfl⟩,
   merges_bounded 3 (by decide) [1, 3, 2] [2, 1, 5] [9, 9, 9] rfl rfl rfl⟩

/-- C15. No crash on unsorted input: for every `n ≥ 1` and every `y`,
`lambda` of length `n` with arbitrary contents (no sortedness or sign
assumption), every access of `evaluateProx` to `s`, `w`, `idx_i`, `idx_j` uses
an index `< n`, every read of `y` and `lambda` and every write of `x` without
a permutation uses an index `< n`, and `idx_i[k] ≤ i` holds whenever
`i - idx_i[k] + 1` is computed, so that divisor is `≥ 1`. In the checked
semantics this reads: the pass reaches every position and the call returns
an outcome, although an access at or beyond the length of an array and an
underflowing `i - idx_i[k]` each make the run yield no outcome. -/
theorem evaluateProx_no_fault (n : Nat) (_hn : 1 ≤ n) (y lambda x : List ℚ) (hy : y.length = n)
    (hl : lambda.length = n) (hx : x.length = n) :
    (∀ m, m ≤ n → ∃ k a, passState y lambda n m = some (k, a) ∧ k ≤ m) ∧
    (∃ out, evaluateProx Alloc.ok y lambda x n none = some out ∧ out.result = 0 ∧
      ∀ p ∈ out.writes, p < n) ∧
    (∀ (α : Type) (a : List (Option α)) (i : Nat) (v : α), a.length ≤ i →
      rd a i = none ∧ wr a i v = none) ∧
    (∀ (o : Out) (p : Nat) (d : ℚ), o.x.length ≤ p → o.store p d = none) ∧
    (∀ (i k lo : Nat) (a : Work) (wp wt : ℚ), rd a.w k = some wp → rd a.w (k + 1) = some wt →
      wp ≤ wt → rd a.idx_i k = some lo → i < lo → mergeLoop i (k + 1) a = none) := by
  refine ⟨?_, ?_, fun α a i v h => ⟨rd_none_of_le a i h, wr_none_of_le a i v h⟩,
    store_none_of_le, mergeLoop_underflow⟩
  · intro m hm
    obtain ⟨k, a, _, e, _, _, _, _, hcnt⟩ := stackAfter_spec hy hl m hm
    exact ⟨k, a, e, by omega⟩
  · obtain ⟨l, _, _, _, h⟩ := evaluateProx_direct hy hl
    obtain ⟨xs, e, _, _, _⟩ := h Alloc.ok x Alloc.all_ok hx
    refine ⟨_, e, rfl, ?_⟩
    intro p hp
    exact List.mem_range.mp hp

/-- C15 at `y = [1, 3, 2]`, `lambda = [2, 1, 5]` (not sorted, mixed signs of
`y - lambda`), where its hypotheses hold. -/
theorem evaluateProx_no_fault_witness :
    (1 ≤ 3 ∧ ([1, 3, 2] : List ℚ).length = 3 ∧ ([2, 1, 5] : List ℚ).length = 3 ∧
      ([9, 9, 9] : List ℚ).length = 3) ∧
    ((∀ m, m ≤ 3 → ∃ k a, passState [1, 3, 2] [2, 1, 5] 3 m = some (k, a) ∧ k ≤ m) ∧
    (∃ out, evaluateProx Alloc.ok [1, 3, 2] [2, 1, 5] [9, 9, 9] 3 none = some out ∧
      out.result = 0 ∧ ∀ p ∈ out.writes, p < 3) ∧
    (∀ (α : Type) (a : List (Option α)) (i : Nat) (v : α), a.length ≤ i →
      rd a i = none ∧ wr a i v = none) ∧
    (∀ (o : Out) (p : Nat) (d : ℚ), o.x.length ≤ p → o.store p d = none) ∧
    (∀ (i k lo : Nat) (a : Work) (wp wt : ℚ), rd a.w k = some wp → rd a.w (k + 1) = some wt →
      wp ≤ wt → rd a.idx_i k = some lo → i < lo → mergeLoop i (k + 1) a = none)) :=
  ⟨⟨by decide, rfl, rfl, rfl⟩,
   evaluateProx_no_fault 3 (by decide) [1, 3, 2] [2, 1, 5] [9, 9, 9] rfl rfl rfl⟩

/-- C16. Projection onto the monotone non-negative cone: for every `n ≥ 1`
and every `y`, `lambda` of length `n` (no sortedness or sign assumption, exact
arithmetic, no permutation), the output `x` of `evaluateProx` satisfies
`x[0] ≥ x[1] ≥ ... ≥ x[n-1] ≥ 0`, and for every vector `v` with
`v[0] ≥ ... ≥ v[n-1] ≥ 0`,
`sum_i (x[i] - (y[i] - lambda[i]))^2 ≤ sum_i (v[i] - (y[i] - lambda[i]))^2`,
with equality only if `v = x`. -/
theorem evaluateProx_projection (n : Nat) (_hn : 1 ≤ n) (y lambda x : List ℚ) (hy : y.length = n)
    (hl : lambda.length = n) (hx : x.length = n) :
    ∃ out, evaluateProx Alloc.ok y lambda x n none = some out ∧ out.result = 0 ∧
      out.x.length = n ∧ out.x.Sorted (· ≥ ·) ∧ (∀ q ∈ out.x, 0 ≤ q) ∧
      ∀ v : List ℚ, v.length = n → v.Sorted (· ≥ ·) → (∀ q ∈ v, 0 ≤ q) →
        ∑ i in Finset.range n, (out.x.getD i 0 - (y.getD i 0 - lambda.getD i 0)) ^ 2
          ≤ ∑ i in Finset.range n, (v.getD i 0 - (y.getD i 0 - lambda.getD i 0)) ^ 2 ∧
        (∑ i in Finset.range n, (out.x.getD i 0 - (y.getD i 0 - lambda.getD i 0)) ^ 2
          = ∑ i in Finset.range n, (v.getD i 0 - (y.getD i 0 - lambda.getD i 0)) ^ 2 →
          v = out.x) := by
  obtain ⟨l, _, hcov, _, h⟩ := evaluateProx_direct hy hl
  obtain ⟨xs, e, hxs, hbv, _⟩ := h Alloc.ok x Alloc.all_ok hx
  have hcone := Cover.inCone hcov hbv
  refine ⟨_, e, rfl, hxs, sorted_of_inCone hxs hcone, nonneg_of_inCone hxs hcone, ?_⟩
  intro v hv hvs hvn
  have hproj := Cover.projection hcov hbv (inCone_of_sorted hv hvs hvn)
  have hsq : 0 ≤ pre (fun t => (v.getD t 0 - xs.getD t 0) ^ 2) n :=
    pre_nonneg n (fun t _ => sq_nonneg _)
  simp only [pre, zOf] at hproj hsq
  refine ⟨by linarith, ?_⟩
  intro heq
  show v = xs
  have h0 : pre (fun t => (v.getD t 0 - xs.getD t 0) ^ 2) n ≤ 0 := by
    simp only [pre]
    have heq' : ∑ i in Finset.range n, (xs.getD i 0 - (y.getD i 0 - lambda.getD i 0)) ^ 2
        = ∑ i in Finset.range n, (v.getD i 0 - (y.getD i 0 - lambda.getD i 0)) ^ 2 := heq
    linarith
  have hzero := pre_eq_zero n (fun t _ => sq_nonneg (v.getD t 0 - xs.getD t 0)) h0
  apply List.ext_getElem (by rw [hv, hxs])
  intro t h1 h2
  have := hzero t (by omega)
  simp only [List.getD_eq_getElem _ _ h1, List.getD_eq_getElem _ _ h2] at this
  have h3 : v[t] - xs[t] = 0 := by simpa using this
  linarith

/-- C16 at `y = [1, 3, 2]`, `lambda = [2, 1, 5]`, where its hypotheses hold. -/
theorem evaluateProx_projection_witness :
    (1 ≤ 3 ∧ ([1, 3, 2] : List ℚ).length = 3 ∧ ([2, 1, 5] : List ℚ).length = 3 ∧
      ([9, 9, 9] : List ℚ).length = 3) ∧
    ∃ out, evaluateProx Alloc.ok [1, 3, 2] [2, 1, 5] [9, 9, 9] 3 none = some out ∧
      out.result = 0 ∧ out.x.length = 3 ∧ out.x.Sorted (· ≥ ·) ∧ (∀ q ∈ out.x, 0 ≤ q) ∧
      ∀ v : List ℚ, v.length = 3 → v.Sorted (· ≥ ·) → (∀ q ∈ v, 0 ≤ q) →
        ∑ i in Finset.range 3,
            (out.x.getD i 0 - (([1, 3, 2] : List ℚ).getD i 0 - ([2, 1, 5] : List ℚ).getD i 0)) ^ 2
          ≤ ∑ i in Finset.range 3,
            (v.getD i 0 - (([1, 3, 2] : List ℚ).getD i 0 - ([2, 1, 5] : List ℚ).getD i 0)) ^ 2 ∧
        (∑ i in Finset.range 3,
            (out.x.getD i 0 - (([1, 3, 2] : List ℚ).getD i 0 - ([2, 1, 5] : List ℚ).getD i 0)) ^ 2
          = ∑ i in Finset.range 3,
            (v.getD i 0 - (([1, 3, 2] : List ℚ).getD i 0 - ([2, 1, 5] : List ℚ).getD i 0)) ^ 2 →
          v = out.x) :=
  ⟨⟨by decide, rfl, rfl, rfl⟩,
   evaluateProx_projection 3 (by decide) [1, 3, 2] [2, 1, 5] [9, 9, 9] rfl rfl rfl⟩

/-- C17. Idempotence under re-application with zero weights: for every
`n ≥ 1` and every `y`, `lambda` of length `n`, feeding the output of
`evaluateProx(y, lambda)` back in with an all-zero weight vector returns it
unchanged (no permutation, exact arithmetic). -/
theorem evaluateProx_idempotent (n : Nat) (_hn : 1 ≤ n) (y lambda x x' : List ℚ)
    (hy : y.length = n) (hl : lambda.length = n) (hx : x.length = n) (hx' : x'.length = n) :
    ∃ out, evaluateProx Alloc.ok y lambda x n none = some out ∧ out.result = 0 ∧
      ∃ out2, evaluateProx Alloc.ok out.x (List.replicate n 0) x' n none = some out2 ∧
        out2.result = 0 ∧ out2.x = out.x := by
  obtain ⟨l, _, hcov, _, h⟩ := evaluateProx_direct hy hl
  obtain ⟨xs, e, hxs, hbv, _⟩ := h Alloc.ok x Alloc.all_ok hx
  have hcone := Cover.inCone hcov hbv
  obtain ⟨out2, e2, hr2, hx2⟩ :=
    @evaluateProx_zero_clip n xs (List.replicate n 0) x' hxs (by simp) hx'
      (sorted_of_inCone hxs hcone) (fun q hq => (List.mem_replicate.mp hq).2)
  refine ⟨_, e, rfl, out2, e2, hr2, ?_⟩
  rw [hx2]
  exact map_clip_of_nonneg (nonneg_of_inCone hxs hcone)

/-- C17 at `y = [1, 3, 2]`, `lambda = [2, 1, 5]`, where its hypotheses hold. -/
theorem evaluateProx_idempotent_witness :
    (1 ≤ 3 ∧ ([1, 3, 2] : List ℚ).length = 3 ∧ ([2, 1, 5] : List ℚ).length = 3 ∧
      ([9, 9, 9] : List ℚ).length = 3 ∧ ([7, 7, 7] : List ℚ).length = 3) ∧
    ∃ out, evaluateProx Alloc.ok [1, 3, 2] [2, 1, 5] [9, 9, 9] 3 none = some out ∧
      out.result = 0 ∧
      ∃ out2, evaluateProx Alloc.ok out.x (List.replicate 3 0) [7, 7, 7] 3 none = some out2 ∧
        out2.result = 0 ∧ out2.x = out.x :=
  ⟨⟨by decide, rfl, rfl, rfl, rfl⟩,
   evaluateProx_idempotent 3 (by decide) [1, 3, 2] [2, 1, 5] [9, 9, 9] [7, 7, 7]
     rfl rfl rfl rfl⟩

end ProxSortedL1
